import Mathlib

/-!
Verification development for `scripts/build_dataset.py`: a batch job that
adds 19 year-over-year delta columns and one aggregate column
(`gov_expected_changes`) to a guide spreadsheet, using a World-Bank style
(country, year, indicator) value panel and a 19-entry mapping table.

Modelling conventions (shallow embedding):
* Python floats are idealized as exact rationals extended with the special
  values NaN, +Inf and -Inf (`PyFloat`). Binary64 rounding and overflow of
  finite decimal literals are not modelled; the special values and their
  propagation through arithmetic are.
* Strings are Lean `String`s; `str.strip()/.lower()/.upper()` are modelled
  over ASCII (Python's Unicode case folding / whitespace beyond ASCII is
  not modelled).
* Spreadsheet worksheets are total cell maps `(row, col) -> CellV` together
  with `maxRow`/`maxCol` bookkeeping, 1-based, mirroring openpyxl's
  `ws.cell(row=..., column=...)` access where writing extends the bounds.
* Fallible Python code (raised exceptions) is modelled with `Except PyErr`.
  The run "saves the output file" exactly when the model returns `.ok`.
-/

/-- An exact rational in canonical form (positive denominator, lowest
terms; produced only through `fracNorm` and friends). A self-contained
executable rational is used so that every model value evaluates inside
the kernel on concrete inputs. -/
structure Frac where
  num : Int
  den : Nat
deriving DecidableEq

/-- Normalize `n / d` to canonical form (`d = 0` never occurs in use). -/
def fracNorm (n d : Int) : Frac :=
  if d = 0 then ⟨0, 1⟩
  else
    let n' : Int := if d < 0 then -n else n
    let dn : Nat := d.natAbs
    let g : Nat := Nat.gcd n'.natAbs dn
    ⟨n'.tdiv (g : Int), dn / g⟩

/-- The integer `n` as a fraction. -/
def fracOfInt (n : Int) : Frac := ⟨n, 1⟩

/-- Exact addition. -/
def fracAdd (a b : Frac) : Frac :=
  fracNorm (a.num * (b.den : Int) + b.num * (a.den : Int)) ((a.den : Int) * (b.den : Int))

/-- Exact negation (canonical form is preserved). -/
def fracNeg (a : Frac) : Frac := ⟨-a.num, a.den⟩

/-- Exact multiplication. -/
def fracMul (a b : Frac) : Frac := fracNorm (a.num * b.num) ((a.den : Int) * (b.den : Int))

/-- Exact division (the divisor is never zero in use). -/
def fracDiv (a b : Frac) : Frac := fracNorm (a.num * (b.den : Int)) ((a.den : Int) * b.num)

/-- The power of ten `10 ^ k` as a fraction. -/
def fracPow10 (k : Nat) : Frac := ⟨((10 ^ k : Nat) : Int), 1⟩

/-- Scale a fraction by `10 ^ e` for a signed exponent. -/
def fracScale10 (m : Frac) : Int → Frac
  | .ofNat k => fracMul m (fracPow10 k)
  | .negSucc k => fracDiv m (fracPow10 (k + 1))

/-- Python float values: exact rationals plus the IEEE special values.
Finite arithmetic is idealized as exact (no binary64 rounding). -/
inductive PyFloat
  | finite (q : Frac)
  | nan
  | inf
  | ninf
deriving DecidableEq

/-- IEEE negation on the idealized floats. -/
def pyNeg : PyFloat → PyFloat
  | .finite q => .finite (fracNeg q)
  | .nan => .nan
  | .inf => .ninf
  | .ninf => .inf

/-- IEEE addition on the idealized floats (finite part exact). -/
def pyAdd : PyFloat → PyFloat → PyFloat
  | .nan, _ => .nan
  | _, .nan => .nan
  | .inf, .ninf => .nan
  | .ninf, .inf => .nan
  | .inf, _ => .inf
  | _, .inf => .inf
  | .ninf, _ => .ninf
  | _, .ninf => .ninf
  | .finite a, .finite b => .finite (fracAdd a b)

/-- IEEE subtraction, `a - b = a + (-b)`. -/
def pySub (a b : PyFloat) : PyFloat := pyAdd a (pyNeg b)

/-- IEEE multiplication on the idealized floats (finite part exact). -/
def pyMul : PyFloat → PyFloat → PyFloat
  | .nan, _ => .nan
  | _, .nan => .nan
  | .inf, .inf => .inf
  | .inf, .ninf => .ninf
  | .ninf, .inf => .ninf
  | .ninf, .ninf => .inf
  | .inf, .finite b => if 0 < b.num then .inf else if b.num < 0 then .ninf else .nan
  | .ninf, .finite b => if 0 < b.num then .ninf else if b.num < 0 then .inf else .nan
  | .finite a, .inf => if 0 < a.num then .inf else if a.num < 0 then .ninf else .nan
  | .finite a, .ninf => if 0 < a.num then .ninf else if a.num < 0 then .inf else .nan
  | .finite a, .finite b => .finite (fracMul a b)

/-- Division of a float by a positive machine integer (used for the mean). -/
def pyDivNat (x : PyFloat) (n : Nat) : PyFloat :=
  match x with
  | .finite q => .finite (fracDiv q (fracOfInt (n : Int)))
  | s => s

/-- Python `sum(list)` over floats: left fold of addition starting from 0
(each intermediate rounding is idealized away). -/
def pySum (l : List PyFloat) : PyFloat := l.foldl pyAdd (.finite (fracOfInt 0))

/-- `statistics.mean`: exact sum divided by the length (the library sums
exactly over fractions and rounds once; the idealization is exact). -/
def pyMean (l : List PyFloat) : PyFloat := pyDivNat (pySum l) l.length

/-- ASCII whitespace stripped by Python's `str.strip()`. -/
def isPyWs (c : Char) : Bool :=
  c = ' ' ∨ c = '\t' ∨ c = '\n' ∨ c = '\r' ∨ c = '\x0b' ∨ c = '\x0c'

/-- Python `str.strip()` (ASCII whitespace). -/
def pyStrip (s : String) : String :=
  ⟨((s.toList.dropWhile isPyWs).reverse.dropWhile isPyWs).reverse⟩

/-- Python `str.lower()` (ASCII). -/
def strLower (s : String) : String := ⟨s.toList.map Char.toLower⟩

/-- Python `str.upper()` (ASCII). -/
def strUpper (s : String) : String := ⟨s.toList.map Char.toUpper⟩

/-- One run of decimal digits, PEP-515 style: a digit, then digits with
single underscores allowed strictly between digits. Returns the value,
the number of digits consumed, and the unconsumed rest. -/
def parseDigitsGo (v cnt : Nat) : List Char → Nat × Nat × List Char
  | [] => (v, cnt, [])
  | c :: cs =>
      if c.isDigit then parseDigitsGo (10 * v + (c.toNat - 48)) (cnt + 1) cs
      else if c = '_' then
        match cs with
        | c2 :: cs2 =>
            if c2.isDigit then parseDigitsGo (10 * v + (c2.toNat - 48)) (cnt + 1) cs2
            else (v, cnt, c :: cs)
        | [] => (v, cnt, [c])
      else (v, cnt, c :: cs)

/-- Parse a nonempty digit run (underscores between digits allowed). -/
def parseDigits : List Char → Option (Nat × Nat × List Char)
  | c :: cs => if c.isDigit then some (parseDigitsGo (c.toNat - 48) 1 cs) else none
  | [] => none

/-- Exponent digits after an optional sign; must consume the whole rest. -/
def parseExpDigits (sgn : Int) (cs : List Char) : Option Int :=
  match parseDigits cs with
  | some (v, _, []) => some (sgn * (v : Int))
  | _ => none

/-- Exponent part after the `e`/`E` marker. -/
def parseExp : List Char → Option Int
  | '+' :: cs => parseExpDigits 1 cs
  | '-' :: cs => parseExpDigits (-1) cs
  | cs => parseExpDigits 1 cs

/-- Mantissa of a decimal literal: `digits [. digits]`, `digits .`, or
`. digits`; returns its exact value and the unconsumed rest. -/
def parseMantissa (cs : List Char) : Option (Frac × List Char) :=
  match parseDigits cs with
  | some (ip, _, rest) =>
    match rest with
    | '.' :: rest2 =>
      match parseDigits rest2 with
      | some (fp, fc, rest3) =>
          some (fracAdd (fracOfInt (ip : Int)) (fracDiv (fracOfInt (fp : Int)) (fracPow10 fc)), rest3)
      | none => some (fracOfInt (ip : Int), rest2)
    | _ => some (fracOfInt (ip : Int), rest)
  | none =>
    match cs with
    | '.' :: rest2 =>
      match parseDigits rest2 with
      | some (fp, fc, rest3) => some (fracDiv (fracOfInt (fp : Int)) (fracPow10 fc), rest3)
      | none => none
    | _ => none

/-- Apply an optional exponent suffix to a mantissa; the rest must be
fully consumed. -/
def applyExp (m : Frac) : List Char → Option Frac
  | [] => some m
  | 'e' :: cs => (parseExp cs).map fun e => fracScale10 m e
  | 'E' :: cs => (parseExp cs).map fun e => fracScale10 m e
  | _ => none

/-- Python's `float(s)` on an already-stripped string: decimal literals
(with optional sign and exponent, PEP-515 underscores) evaluated exactly,
plus the keywords `inf`/`infinity`/`nan` case-insensitively.
Returns `none` where Python raises `ValueError`. -/
def parsePyFloat (s : String) : Option PyFloat :=
  let cs := s.toList
  let sgnCs : Int × List Char :=
    match cs with
    | '+' :: t => (1, t)
    | '-' :: t => (-1, t)
    | t => (1, t)
  let sgn := sgnCs.1
  let low := sgnCs.2.map Char.toLower
  if low = "inf".toList ∨ low = "infinity".toList then
    some (if sgn = 1 then .inf else .ninf)
  else if low = "nan".toList then some .nan
  else
    match parseMantissa sgnCs.2 with
    | some (m, rest) => (applyExp m rest).map fun q => .finite (fracMul (fracOfInt sgn) q)
    | none => none

/-- `_safe_float`: `None`, empty/whitespace-only strings and parse failures
give `None`; otherwise the parsed float (which may be NaN or ±Inf). -/
def pySafeFloat : Option String → Option PyFloat
  | none => none
  | some x =>
    let s := pyStrip x
    if s = "" then none else parsePyFloat s

/-- Truncation toward zero, Python's `int()` applied to a finite float. -/
def truncToZero (q : Frac) : Int := q.num.tdiv (q.den : Int)

/-- Equality of `Except` results is decidable component-wise (used to
evaluate the model on concrete inputs). -/
instance {ε α : Type} [DecidableEq ε] [DecidableEq α] : DecidableEq (Except ε α) := fun a b =>
  match a, b with
  | .ok x, .ok y =>
      if h : x = y then .isTrue (by rw [h])
      else .isFalse (fun hh => h (Except.ok.inj hh))
  | .error x, .error y =>
      if h : x = y then .isTrue (by rw [h])
      else .isFalse (fun hh => h (Except.error.inj hh))
  | .ok _, .error _ => .isFalse (fun hh => Except.noConfusion hh)
  | .error _, .ok _ => .isFalse (fun hh => Except.noConfusion hh)

/-- Error values for the exceptions `main` can raise. -/
inductive PyErr
  | mappingCount (n : Nat)   -- mapping csv does not hold exactly 19 entries
  | noCsvInZip               -- no .csv member in the archive
  | noIdCols                 -- Country Code / Indicator Code column missing
  | noYearCols               -- no year-like column in the panel csv
  | colNotFound (preferred : String)  -- caller-supplied header override absent
  | colNotFoundFallbacks     -- none of the fallback header spellings present
  | overflowError            -- int(float) of an infinite value
deriving DecidableEq

/-- A spreadsheet cell value: empty (`None`), text, or a numeric value. -/
inductive CellV
  | none
  | str (s : String)
  | num (x : PyFloat)
deriving DecidableEq

/-- `str()` of a float. Integral floats render as Python does (`"2015.0"`);
the rendering of non-integral rationals is a placeholder, since the exact
rational idealization has no canonical shortest-round-trip decimal. It is
never consulted by any claim. -/
def pyFloatStr : PyFloat → String
  | .nan => "nan"
  | .inf => "inf"
  | .ninf => "-inf"
  | .finite q =>
      if q.den = 1 then toString q.num ++ ".0"
      else toString q.num ++ "e" ++ toString q.den

/-- `str()` of a cell value (Python renders `None` as `"None"`). -/
def cellStr : CellV → String
  | .none => "None"
  | .str s => s
  | .num x => pyFloatStr x

/-- `_normalize_header`: strip, lowercase, underscores to spaces. -/
def normHeader (x : String) : String :=
  ⟨((strLower (pyStrip x)).toList.map fun c => if c = '_' then ' ' else c)⟩

/-- `as_country_code`: `None` becomes `""`, otherwise strip + uppercase
(the source's 3-letter branch performs the same uppercase). -/
def as_country_code (v : CellV) : String :=
  match v with
  | .none => ""
  | w =>
    let s := pyStrip (cellStr w)
    if s.length = 3 ∧ s.toList.all Char.isAlpha then strUpper s else strUpper s

/-- `as_year`: `int(float(str(v).strip()))` with `ValueError` caught
(yielding `None`) and `OverflowError` (`int(±inf)`) propagating.
For numeric cells, `float(str(x))` round-trips to `x`, so truncation is
applied directly. -/
def as_year (v : CellV) : Except PyErr (Option Int) :=
  match v with
  | .none => .ok none
  | .num (.finite q) => .ok (some (truncToZero q))
  | .num .nan => .ok none
  | .num _ => .error .overflowError
  | .str v' =>
    let s := pyStrip v'
    if s = "" then .ok none
    else
      match parsePyFloat s with
      | some (.finite q) => .ok (some (truncToZero q))
      | some .nan => .ok none
      | some _ => .error .overflowError
      | none => .ok none

/-- One record of the mapping csv as seen through `csv.DictReader`:
`none` models a missing key or a `None` restval. -/
structure MappingRecord where
  delta_col : Option String
  indicator_code : Option String
  direction : Option String
deriving DecidableEq

/-- A validated mapping entry `(delta_col, indicator_code, direction)`. -/
structure MappingEntry where
  delta_col : String
  indicator : String
  direction : PyFloat
deriving DecidableEq

/-- The records kept by `load_mapping`'s loop: both the destination column
name and the indicator code must be nonempty after stripping; the direction
defaults to 1.0 when missing or unparseable. -/
def validMappingEntries (rows : List MappingRecord) : List MappingEntry :=
  rows.filterMap fun row =>
    let dc := pyStrip (row.delta_col.getD "")
    let ind := pyStrip (row.indicator_code.getD "")
    if dc = "" ∨ ind = "" then none
    else some ⟨dc, ind, (pySafeFloat (some (row.direction.getD "1"))).getD (.finite (fracOfInt 1))⟩

/-- `load_mapping`: keep the valid records, then require exactly 19. -/
def load_mapping (rows : List MappingRecord) : Except PyErr (List MappingEntry) :=
  let out := validMappingEntries rows
  if out.length = 19 then .ok out else .error (.mappingCount out.length)

/-- Membership of a name inside the candidate archive names, lowercased. -/
def containsSub (pat : List Char) : List Char → Bool
  | [] => pat.isEmpty
  | c :: cs => pat.isPrefixOf (c :: cs) || containsSub pat cs

/-- `find_data_csv_in_zip`: candidate members end with `.csv`; prefer
non-metadata names containing an `api_`/`data` marker, else the first
candidate; fail when the archive holds no csv at all. -/
def find_data_csv_in_zip (names : List String) : Except PyErr String :=
  match names.filter (fun n => (".csv".toList).isSuffixOf (strLower n).toList) with
  | [] => .error .noCsvInZip
  | c :: cs =>
    let good := (c :: cs).filter fun n =>
      let l := (strLower n).toList
      (!containsSub ("metadata".toList) l) &&
        (containsSub ("api_".toList) l || containsSub ("data".toList) l)
    .ok (match good with | g :: _ => g | [] => c)

/-- A delimited file as seen through `csv.DictReader`: the header names and
each row as an association list from header to cell (a `none` value models
`DictReader`'s `None` restval for short rows). -/
structure CsvFile where
  fieldnames : List String
  rows : List (List (String × Option String))
deriving DecidableEq

/-- `dict.get(k, default)`. -/
def dictGetD (row : List (String × Option String)) (k : String) (d : Option String) :
    Option String :=
  match row.lookup k with
  | some v => v
  | Option.none => d

/-- The WB-header normalization used when locating the identifying columns:
`c.lower()` with spaces turned into underscores. -/
def normWB (c : String) : String :=
  ⟨((strLower c).toList.map fun ch => if ch = ' ' then '_' else ch)⟩

/-- First fieldname whose lowercased, space-to-underscore form equals the
target (the source's `"country code" == cl` disjunct is subsumed by the
`cl.replace(" ", "_")` comparison). -/
def findWBCol (fieldnames : List String) (target : String) : Option String :=
  fieldnames.find? fun c => normWB c = target

/-- The sparse value panel: association list keyed by
(country, year, indicator); the most recent insertion is found first,
giving the dict's last-write-wins semantics. -/
def ValueMap : Type := List ((String × Int × String) × PyFloat)

/-- Value maps inherit decidable equality from their representation. -/
instance : DecidableEq ValueMap :=
  inferInstanceAs (DecidableEq (List ((String × Int × String) × PyFloat)))

/-- Numeric year of a year column header (the header passed
`c.strip().isdigit()`, so `int(c)` reads the stripped digits). -/
def yearOfCol (yc : String) : Int :=
  ((pyStrip yc).toList.foldl (fun a c => 10 * a + (c.toNat - 48)) 0 : Nat)

/-- A year column header: nonempty and all digits after stripping. -/
def isYearCol (c : String) : Bool :=
  (pyStrip c) ≠ "" && (pyStrip c).toList.all Char.isDigit

/-- `load_wb_values_from_zip`'s parsing stage: locate the identifying
columns, collect the year columns, then store every parseable value under
its verbatim (stripped, not case-normalized) country code. -/
def load_wb_values (f : CsvFile) : Except PyErr ValueMap :=
  match findWBCol f.fieldnames "country_code", findWBCol f.fieldnames "indicator_code" with
  | some cc, some ic =>
    let yearCols := f.fieldnames.filter isYearCol
    if yearCols.isEmpty then .error .noYearCols
    else
      .ok (f.rows.foldl (fun vm row =>
        let country := pyStrip ((dictGetD row cc Option.none).getD "")
        let indicator := pyStrip ((dictGetD row ic Option.none).getD "")
        if country = "" ∨ indicator = "" then vm
        else yearCols.foldl (fun vm2 yc =>
          match pySafeFloat (dictGetD row yc (some "")) with
          | some v => ((country, yearOfCol yc, indicator), v) :: vm2
          | Option.none => vm2) vm) [])
  | _, _ => .error .noIdCols

/-- The lookup path of `main`'s row loop: the queried country code goes
through `as_country_code` (strip + uppercase), then a plain dict get. -/
def storeLookup (vm : ValueMap) (q : String) (y : Int) (i : String) : Option PyFloat :=
  vm.lookup (as_country_code (.str q), y, i)

/-- An openpyxl worksheet: 1-based total cell map with bound bookkeeping
(`ws.max_row` / `ws.max_column`); accessing a cell for writing extends the
bounds. -/
@[ext]
structure Sheet where
  maxRow : Nat
  maxCol : Nat
  cells : Nat → Nat → CellV

/-- `ws.cell(row=r, column=c, value=v)`. Writing `None` still creates the
cell, so the bounds are extended either way. -/
def writeCell (s : Sheet) (r c : Nat) (v : CellV) : Sheet :=
  { maxRow := max s.maxRow r
    maxCol := max s.maxCol c
    cells := fun r' c' => if r' = r ∧ c' = c then v else s.cells r' c' }

/-- One step of the header-map construction: a non-`None` header cell at
column `c` (re)binds its normalized text to `c`. -/
def hmStep (s : Sheet) (m : String → Option Nat) (c : Nat) : String → Option Nat :=
  match s.cells 1 c with
  | CellV.none => m
  | v => fun k => if k = normHeader (cellStr v) then some c else m k

/-- The guide table's header index map, built by scanning row 1 left to
right; a later column with the same normalized header wins. -/
def headerMap (s : Sheet) : String → Option Nat :=
  (List.range' 1 s.maxCol).foldl (hmStep s) (fun _ => none)

/-- `find_header_col`: a truthy (non-empty) caller override is consulted
alone — it matches or the call raises; otherwise the fallback spellings
are tried in order. -/
def find_header_col (hm : String → Option Nat) (preferred : Option String)
    (fallbacks : List String) : Except PyErr Nat :=
  match preferred with
  | some p =>
    if p = "" then findFallback hm fallbacks
    else
      match hm (normHeader p) with
      | some c => .ok c
      | none => .error (.colNotFound p)
  | none => findFallback hm fallbacks
where
  /-- The fallback scan at the end of `find_header_col`. -/
  findFallback (hm : String → Option Nat) : List String → Except PyErr Nat
    | [] => .error .colNotFoundFallbacks
    | f :: fs =>
      match hm (normHeader f) with
      | some c => .ok c
      | none => findFallback hm fs

/-- The fallback header spellings for the guide country column. -/
def countryFallbacks : List String := ["country code", "country", "iso3", "iso3 code", "economy"]

/-- The fallback header spellings for the guide year column. -/
def yearFallbacks : List String := ["year", "date"]

/-- State of the ensure-columns phase: the evolving sheet, the (manually
maintained) header map, the `delta_col_indices` dict, and `next_col`. -/
structure EnsureState where
  s : Sheet
  hm : String → Option Nat
  idx : String → Option Nat
  nextCol : Nat

/-- Pointwise update of a finite map. -/
def updMap (m : String → Option Nat) (k : String) (v : Nat) : String → Option Nat :=
  fun x => if x = k then some v else m x

/-- One mapping entry of the ensure-columns loop: reuse the column whose
normalized header matches, else append a fresh column at `next_col`,
writing its header cell. -/
def ensureStep (st : EnsureState) (e : MappingEntry) : EnsureState :=
  let key := normHeader e.delta_col
  match st.hm key with
  | some c => { st with idx := updMap st.idx e.delta_col c }
  | none =>
    { s := writeCell st.s 1 st.nextCol (.str e.delta_col)
      hm := updMap st.hm key st.nextCol
      idx := updMap st.idx e.delta_col st.nextCol
      nextCol := st.nextCol + 1 }

/-- The ensure-columns loop over the mapping entries. -/
def ensureDeltaCols (mapping : List MappingEntry) (st : EnsureState) : EnsureState :=
  mapping.foldl ensureStep st

/-- The initial ensure state for a guide sheet: header map from row 1,
empty `delta_col_indices`, `next_col = ws.max_column + 1`. -/
def initEnsure (s : Sheet) : EnsureState :=
  ⟨s, headerMap s, fun _ => none, s.maxCol + 1⟩

/-- Ensure the aggregate column exists: reuse a matching header, else
write `gov_expected_changes` at `next_col` (neither the header map nor
`next_col` is updated afterwards — it is the last column ensured). -/
def ensureGov (st : EnsureState) : Sheet × Nat :=
  match st.hm (normHeader "gov_expected_changes") with
  | some c => (st.s, c)
  | none => (writeCell st.s 1 st.nextCol (.str "gov_expected_changes"), st.nextCol)

/-- The delta of one mapping entry for a resolved (country, year) pair:
present only when both the current and the previous year's values are. -/
def entryDelta (vm : ValueMap) (country : String) (year : Int) (e : MappingEntry) :
    Option PyFloat :=
  match vm.lookup (country, year, e.indicator), vm.lookup (country, year - 1, e.indicator) with
  | some cur, some pre => some (pyMul e.direction (pySub cur pre))
  | _, _ => none

/-- The per-row aggregation collection `row_deltas`: the present deltas of
the mapping entries, in table order. -/
def rowDeltas (vm : ValueMap) (country : String) (year : Int)
    (mapping : List MappingEntry) : List PyFloat :=
  mapping.filterMap (entryDelta vm country year)

/-- The aggregation collection as a function of the resolution outcome:
empty when the country is blank or the year is unresolved. -/
def rowDeltasOf (vm : ValueMap) (mapping : List MappingEntry) (country : String) :
    Option Int → List PyFloat
  | some y => if country = "" then [] else rowDeltas vm country y mapping
  | none => []

/-- One iteration of the delta-writing loop: write the entry's delta (or
an explicit empty cell) and extend `row_deltas` when present. -/
def deltaWrite (vm : ValueMap) (country : String) (year : Int) (colIdx : String → Nat)
    (r : Nat) (acc : Sheet × List PyFloat) (e : MappingEntry) : Sheet × List PyFloat :=
  match entryDelta vm country year e with
  | some d => (writeCell acc.1 r (colIdx e.delta_col) (.num d), acc.2 ++ [d])
  | none => (writeCell acc.1 r (colIdx e.delta_col) CellV.none, acc.2)

/-- The body of `main`'s row loop after country/year resolution: write the
19 delta cells (empty cells when the row is unresolvable), then the
aggregate cell — empty when no deltas were collected, else the sum or the
mean per the configured mode. -/
def processRow (vm : ValueMap) (mapping : List MappingEntry) (colIdx : String → Nat)
    (gi : Nat) (aggSum : Bool) (r : Nat) (country : String) (yearOpt : Option Int)
    (s : Sheet) : Sheet :=
  let sd : Sheet × List PyFloat :=
    match yearOpt with
    | some year =>
      if country = "" then
        (mapping.foldl (fun sh e => writeCell sh r (colIdx e.delta_col) CellV.none) s, [])
      else mapping.foldl (deltaWrite vm country year colIdx r) (s, [])
    | none =>
      (mapping.foldl (fun sh e => writeCell sh r (colIdx e.delta_col) CellV.none) s, [])
  match sd.2 with
  | [] => writeCell sd.1 r gi CellV.none
  | ds =>
    writeCell sd.1 r gi (.num (if aggSum then pySum ds else pyMean ds))

/-- One full row iteration: resolve the country and year from the guide
cells (the year resolution can raise), then process the row. -/
def rowStep (vm : ValueMap) (mapping : List MappingEntry) (colIdx : String → Nat)
    (gi : Nat) (aggSum : Bool) (ci yi : Nat) (s : Sheet) (r : Nat) :
    Except PyErr Sheet := do
  let country := as_country_code (s.cells r ci)
  let y ← as_year (s.cells r yi)
  pure (processRow vm mapping colIdx gi aggSum r country y s)

/-- The row loop of `main`: rows 2 through `ws.max_row` of the sheet as it
stood when the loop started, threading the mutated sheet. -/
def processRows (vm : ValueMap) (mapping : List MappingEntry) (colIdx : String → Nat)
    (gi : Nat) (aggSum : Bool) (ci yi : Nat) (s : Sheet) : Except PyErr Sheet :=
  (List.range' 2 (s.maxRow - 1)).foldlM (rowStep vm mapping colIdx gi aggSum ci yi) s

/-- The enrichment pipeline of `main` after the inputs are loaded: resolve
the identifying columns, ensure the 19 delta columns and the aggregate
column, then run the row loop. -/
def enrich (countryOv yearOv : Option String) (aggSum : Bool)
    (mapping : List MappingEntry) (vm : ValueMap) (s : Sheet) : Except PyErr Sheet := do
  let hm := headerMap s
  let ci ← find_header_col hm countryOv countryFallbacks
  let yi ← find_header_col hm yearOv yearFallbacks
  let st := ensureDeltaCols mapping (initEnsure s)
  let sg := ensureGov st
  processRows vm mapping (fun n => (st.idx n).getD 0) sg.2 aggSum ci yi sg.1

/-- `main` as a function of its loaded inputs: load and validate the
mapping, pick and parse the panel csv out of the archive, then enrich the
guide sheet. A `.ok` result models the saved output workbook; every
`.error` aborts the run before the output file is written. -/
def runMain (mrows : List MappingRecord) (zipEntries : List (String × CsvFile))
    (guide : Sheet) (countryOv yearOv : Option String) (aggSum : Bool) :
    Except PyErr Sheet := do
  let mapping ← load_mapping mrows
  let dataName ← find_data_csv_in_zip (zipEntries.map Prod.fst)
  let vm ← load_wb_values ((zipEntries.lookup dataName).getD ⟨[], []⟩)
  enrich countryOv yearOv aggSum mapping vm guide

/-- The cell written for an entry's delta: the numeric delta when present,
an explicitly empty cell otherwise. -/
def cellOfDelta : Option PyFloat → CellV
  | some d => .num d
  | none => CellV.none

theorem writeCell_cells (s : Sheet) (r c r' c' : Nat) (v : CellV) :
    (writeCell s r c v).cells r' c' = if r' = r ∧ c' = c then v else s.cells r' c' := rfl

theorem writeCell_cells_self (s : Sheet) (r c : Nat) (v : CellV) :
    (writeCell s r c v).cells r c = v := by
  simp [writeCell_cells]

theorem writeCell_cells_other (s : Sheet) (r c r' c' : Nat) (v : CellV)
    (h : ¬(r' = r ∧ c' = c)) : (writeCell s r c v).cells r' c' = s.cells r' c' := by
  simp [writeCell_cells, h]

/-- `find_header_col` with a non-empty override consults the override
alone. -/
theorem find_header_col_preferred (hm : String → Option Nat) (p : String) (fbs : List String)
    (hp : p ≠ "") :
    find_header_col hm (some p) fbs =
      match hm (normHeader p) with
      | some c => .ok c
      | none => .error (.colNotFound p) := by
  simp [find_header_col, hp]

/-- The fallback scan errors exactly when no fallback key is bound. -/
theorem findFallback_error_iff (hm : String → Option Nat) (fbs : List String) :
    (∃ e, find_header_col.findFallback hm fbs = .error e) ↔
      ∀ f ∈ fbs, hm (normHeader f) = none := by
  induction fbs with
  | nil => simp [find_header_col.findFallback]
  | cons f fs ih =>
    cases h : hm (normHeader f) with
    | none => simpa [find_header_col.findFallback, h] using ih
    | some c => simp [find_header_col.findFallback, h]

/-- C9 (counterexample): with the override `foo` supplied and absent from
the headers, `find_header_col` raises even though the fallback spelling
`country` (a member of the fixed fallback list) is bound — contradicting
"raises if and only if neither the override nor any fallback matches". -/
theorem c9_counterexample :
    find_header_col (fun k => if k = "country" then some 1 else none) (some "foo")
        countryFallbacks = .error (.colNotFound "foo") ∧
      "country" ∈ countryFallbacks ∧
      (fun k => if k = "country" then some 1 else none) (normHeader "country") = some 1 := by
  refine ⟨by decide, by decide, by decide⟩

/-- C9 (amended): a non-empty caller override is consulted exclusively —
the call raises exactly when the override header is absent, and the
fallbacks are never tried; only with no (or an empty) override are the
fallback spellings scanned in order, raising exactly when none matches. -/
theorem c9_header_resolution (hm : String → Option Nat) (p f : String)
    (fbs fs : List String) :
    (p ≠ "" → find_header_col hm (some p) fbs =
      match hm (normHeader p) with
      | some c => .ok c
      | none => .error (.colNotFound p)) ∧
    find_header_col hm (some "") fbs = find_header_col hm none fbs ∧
    find_header_col hm none [] = .error .colNotFoundFallbacks ∧
    (find_header_col hm none (f :: fs) =
      match hm (normHeader f) with
      | some c => .ok c
      | none => find_header_col hm none fs) ∧
    ((∃ e, find_header_col hm none fbs = .error e) ↔
      ∀ g ∈ fbs, hm (normHeader g) = none) := by
  refine ⟨fun hp => find_header_col_preferred hm p fbs hp, rfl, rfl, ?_, ?_⟩
  · show find_header_col.findFallback hm (f :: fs) = _
    cases h : hm (normHeader f) with
    | none => simp [find_header_col.findFallback, h]; rfl
    | some c => simp [find_header_col.findFallback, h]
  · exact findFallback_error_iff hm fbs

/-- C9 (witness): the amended characterization applied at a concrete
header map: the override `Year` resolves to its column. -/
theorem c9_header_resolution_witness :
    find_header_col (fun k => if k = "year" then some 2 else none) (some "Year")
      yearFallbacks = .ok 2 := by
  have h := (c9_header_resolution (fun k => if k = "year" then some 2 else none)
    "Year" "year" yearFallbacks []).1 (by decide)
  rw [h]; decide

/-- C10 (counterexample): the year cell `nan` parses as a floating-point
number (Python's `float("nan")` succeeds) and is not empty, yet the year
resolves to absent — `int(nan)` raises `ValueError`, which the code
catches — contradicting "only cells that are empty or non-numeric resolve
to absent". -/
theorem c10_counterexample :
    parsePyFloat (pyStrip "nan") = some PyFloat.nan ∧ pyStrip "nan" ≠ "" ∧
      as_year (CellV.str "nan") = .ok none := by
  refine ⟨by decide, by decide, by decide⟩

/-- C10 (amended): a guide-row year cell whose text parses as a finite
floating-point number resolves to the float truncated toward zero; the
year resolves to absent exactly when the cell is empty, non-numeric, or
parses to NaN (infinite numeric text instead raises an uncaught
`OverflowError`). -/
theorem c10_year_truncation (s : String) :
    (∀ q, parsePyFloat (pyStrip s) = some (.finite q) →
      as_year (.str s) = .ok (some (truncToZero q))) ∧
    (as_year (.str s) = .ok none ↔
      pyStrip s = "" ∨ parsePyFloat (pyStrip s) = none ∨
        parsePyFloat (pyStrip s) = some .nan) := by
  constructor
  · intro q h
    by_cases hs : pyStrip s = ""
    · rw [hs] at h
      have hnone : parsePyFloat "" = none := by decide
      rw [hnone] at h
      exact Option.noConfusion h
    · simp [as_year, hs, h]
  · by_cases hs : pyStrip s = ""
    · simp [as_year, hs]
    · cases h : parsePyFloat (pyStrip s) with
      | none => simp [as_year, hs, h]
      | some x => cases x <;> simp [as_year, hs, h]

/-- C10 (witness): the amended claim at the concrete cell `2015.9`, which
parses to the finite value 20159/10 and resolves to the year 2015. -/
theorem c10_year_truncation_witness :
    as_year (.str "2015.9") = .ok (some 2015) ∧ ¬ as_year (.str "2015.9") = .ok none := by
  have h := c10_year_truncation "2015.9"
  refine ⟨?_, ?_⟩
  · have := h.1 ⟨20159, 10⟩ (by decide)
    rw [this]; decide
  · rw [h.2]; decide

/-- C3 (counterexample): a dataset row stores the parseable value 5 under
the verbatim lowercase country code `usa` — storage does NOT uppercase —
and the lookup path (which uppercases the query) then misses the stored
triple even for the identically-cased query `usa`. -/
theorem c3_counterexample :
    load_wb_values
        { fieldnames := ["Country Code", "Indicator Code", "2015"]
          rows := [[("Country Code", some "usa"), ("Indicator Code", some "X"),
                    ("2015", some "5")]] } =
      .ok [(("usa", 2015, "X"), .finite ⟨5, 1⟩)] ∧
    storeLookup [(("usa", 2015, "X"), .finite ⟨5, 1⟩)] "usa" 2015 "X" = none := by
  refine ⟨by decide, by decide⟩

/-- C3 (amended): country codes are uppercased at lookup time only; values
sit under the dataset's verbatim (stripped) code, so a stored triple is
found exactly when the stripped-uppercased query equals the stored code —
in particular, lookups are case-insensitive in the query whenever the
dataset's code is already uppercase. -/
theorem c3_lookup_uppercases_query_only (vm : ValueMap) (c : String) (y : Int)
    (i : String) (v : PyFloat) (q : String)
    (hstore : vm.lookup (c, y, i) = some v)
    (hq : strUpper (pyStrip q) = c) :
    storeLookup vm q y i = some v := by
  have hcc : as_country_code (.str q) = c := by
    rw [← hq]; simp [as_country_code, cellStr]
  unfold storeLookup
  rw [hcc]
  exact hstore

/-- C3 (witness): the amended lookup at an uppercase stored code `USA`
found from the differently-cased query `  usa `. -/
theorem c3_lookup_witness :
    storeLookup [(("USA", 2015, "X"), PyFloat.finite ⟨5, 1⟩)] " usa " 2015 "X" =
      some (.finite ⟨5, 1⟩) :=
  c3_lookup_uppercases_query_only _ "USA" 2015 "X" _ " usa " (by decide) (by decide)

/-- C4 (confirmed): mapping construction drops (without raising) every
record whose destination column or indicator code strips to empty, then
fails exactly when the remaining count differs from 19; on success the 19
surviving records are returned in order, and the failure propagates out of
`runMain` before any part of the sheet pipeline runs. -/
theorem c4_mapping_validation (rows : List MappingRecord) :
    ((∃ e, load_mapping rows = .error e) ↔ (validMappingEntries rows).length ≠ 19) ∧
    (∀ l, load_mapping rows = .ok l → l = validMappingEntries rows) ∧
    (∀ z g co yo aggSum, (validMappingEntries rows).length ≠ 19 →
      runMain rows z g co yo aggSum =
        .error (.mappingCount (validMappingEntries rows).length)) := by
  refine ⟨?_, ?_, ?_⟩
  · by_cases h : (validMappingEntries rows).length = 19 <;> simp [load_mapping, h]
  · intro l hl
    by_cases h : (validMappingEntries rows).length = 19 <;>
      simp [load_mapping, h] at hl
    exact hl.symm
  · intro z g co yo aggSum h
    have hload : load_mapping rows = .error (.mappingCount (validMappingEntries rows).length) := by
      simp [load_mapping, h]
    simp [runMain, hload, Bind.bind, Except.bind]

/-- C4 (witness): an empty mapping input (0 valid records) fails with the
count error, already at the head of `runMain`. -/
theorem c4_mapping_validation_witness :
    (∃ e, load_mapping ([] : List MappingRecord) = .error e) ∧
      runMain [] [] ⟨1, 1, fun _ _ => CellV.none⟩ none none false =
        .error (.mappingCount 0) := by
  have h := c4_mapping_validation []
  exact ⟨h.1.mpr (by decide), h.2.2 [] _ none none false (by decide)⟩

/-- The columns the delta-writing loop targets. -/
def deltaCols (colIdx : String → Nat) (mapping : List MappingEntry) : List Nat :=
  mapping.map fun e => colIdx e.delta_col

theorem deltaWrite_fold_frame (vm : ValueMap) (country : String) (year : Int)
    (colIdx : String → Nat) (r : Nat) (mapping : List MappingEntry)
    (acc : Sheet × List PyFloat) (r' c' : Nat)
    (h : r' ≠ r ∨ c' ∉ deltaCols colIdx mapping) :
    (mapping.foldl (deltaWrite vm country year colIdx r) acc).1.cells r' c' =
      acc.1.cells r' c' := by
  induction mapping generalizing acc with
  | nil => rfl
  | cons e rest ih =>
    have hc : ¬(r' = r ∧ c' = colIdx e.delta_col) := by
      rcases h with h | h
      · exact fun hh => h hh.1
      · exact fun hh => h (by rw [hh.2]; exact List.mem_cons_self _ _)
    have h' : r' ≠ r ∨ c' ∉ deltaCols colIdx rest := by
      rcases h with h | h
      · exact Or.inl h
      · exact Or.inr fun hm => h (List.mem_cons_of_mem _ hm)
    rw [List.foldl_cons]
    rw [ih _ h']
    cases hd : entryDelta vm country year e <;>
      simp [deltaWrite, hd, writeCell_cells, hc]

theorem noneWrite_fold_frame (colIdx : String → Nat) (r : Nat)
    (mapping : List MappingEntry) (s : Sheet) (r' c' : Nat)
    (h : r' ≠ r ∨ c' ∉ deltaCols colIdx mapping) :
    (mapping.foldl (fun sh e => writeCell sh r (colIdx e.delta_col) CellV.none) s).cells r' c' =
      s.cells r' c' := by
  induction mapping generalizing s with
  | nil => rfl
  | cons e rest ih =>
    have hc : ¬(r' = r ∧ c' = colIdx e.delta_col) := by
      rcases h with h | h
      · exact fun hh => h hh.1
      · exact fun hh => h (by rw [hh.2]; exact List.mem_cons_self _ _)
    have h' : r' ≠ r ∨ c' ∉ deltaCols colIdx rest := by
      rcases h with h | h
      · exact Or.inl h
      · exact Or.inr fun hm => h (List.mem_cons_of_mem _ hm)
    rw [List.foldl_cons, ih _ h', writeCell_cells_other _ _ _ _ _ _ hc]

theorem noneWrite_fold_value (colIdx : String → Nat) (r : Nat)
    (mapping : List MappingEntry) (s : Sheet) (c' : Nat)
    (hc : c' ∈ deltaCols colIdx mapping) :
    (mapping.foldl (fun sh e => writeCell sh r (colIdx e.delta_col) CellV.none) s).cells r
      c' = CellV.none := by
  induction mapping generalizing s with
  | nil => exact absurd hc (List.not_mem_nil c')
  | cons e0 rest ih =>
    rw [List.foldl_cons]
    by_cases hmem : c' ∈ deltaCols colIdx rest
    · exact ih _ hmem
    · rcases List.mem_cons.mp hc with he0 | hrest
      · rw [noneWrite_fold_frame _ _ _ _ _ _ (Or.inr hmem), he0]
        exact writeCell_cells_self _ _ _ _
      · exact absurd hrest hmem

theorem deltaWrite_fold_value (vm : ValueMap) (country : String) (year : Int)
    (colIdx : String → Nat) (r : Nat) (mapping : List MappingEntry)
    (acc : Sheet × List PyFloat) (hn : (deltaCols colIdx mapping).Nodup)
    (e : MappingEntry) (he : e ∈ mapping) :
    (mapping.foldl (deltaWrite vm country year colIdx r) acc).1.cells r
      (colIdx e.delta_col) = cellOfDelta (entryDelta vm country year e) := by
  induction mapping generalizing acc with
  | nil => exact absurd he (List.not_mem_nil e)
  | cons e0 rest ih =>
    rw [List.foldl_cons]
    rcases List.mem_cons.mp he with he0 | hrest
    · subst he0
      have hmem : colIdx e.delta_col ∉ deltaCols colIdx rest :=
        (List.nodup_cons.mp hn).1
      rw [deltaWrite_fold_frame _ _ _ _ _ _ _ _ _ (Or.inr hmem)]
      cases hd : entryDelta vm country year e <;>
        simp [deltaWrite, hd, cellOfDelta, writeCell_cells_self]
    · exact ih _ (List.nodup_cons.mp hn).2 hrest

theorem deltaWrite_fold_deltas (vm : ValueMap) (country : String) (year : Int)
    (colIdx : String → Nat) (r : Nat) (mapping : List MappingEntry)
    (acc : Sheet × List PyFloat) :
    (mapping.foldl (deltaWrite vm country year colIdx r) acc).2 =
      acc.2 ++ mapping.filterMap (entryDelta vm country year) := by
  induction mapping generalizing acc with
  | nil => simp
  | cons e rest ih =>
    rw [List.foldl_cons, List.filterMap_cons]
    cases hd : entryDelta vm country year e with
    | none => simp [deltaWrite, hd, ih]
    | some d => simp [deltaWrite, hd, ih]

theorem processRow_gov (vm : ValueMap) (mapping : List MappingEntry)
    (colIdx : String → Nat) (gi : Nat) (aggSum : Bool) (r : Nat) (country : String)
    (yOpt : Option Int) (s : Sheet) :
    (processRow vm mapping colIdx gi aggSum r country yOpt s).cells r gi =
      match rowDeltasOf vm mapping country yOpt with
      | [] => CellV.none
      | ds => .num (if aggSum then pySum ds else pyMean ds) := by
  cases yOpt with
  | none =>
    simp only [processRow, rowDeltasOf]
    exact writeCell_cells_self _ _ _ _
  | some y =>
    by_cases hc : country = ""
    · simp only [processRow, rowDeltasOf, hc, if_pos rfl]
      exact writeCell_cells_self _ _ _ _
    · simp only [processRow, rowDeltasOf, if_neg hc]
      rw [deltaWrite_fold_deltas]
      simp only [List.nil_append]
      cases hds : rowDeltas vm country y mapping with
      | nil =>
        simp only [rowDeltas] at hds
        rw [hds]
        exact writeCell_cells_self _ _ _ _
      | cons d ds =>
        simp only [rowDeltas] at hds
        rw [hds]
        exact writeCell_cells_self _ _ _ _

theorem processRow_delta_resolved (vm : ValueMap) (mapping : List MappingEntry)
    (colIdx : String → Nat) (gi : Nat) (aggSum : Bool) (r : Nat) (country : String)
    (y : Int) (s : Sheet) (hn : (deltaCols colIdx mapping).Nodup)
    (hgi : gi ∉ deltaCols colIdx mapping) (hc : country ≠ "")
    (e : MappingEntry) (he : e ∈ mapping) :
    (processRow vm mapping colIdx gi aggSum r country (some y) s).cells r
      (colIdx e.delta_col) = cellOfDelta (entryDelta vm country y e) := by
  have hne : ¬(r = r ∧ colIdx e.delta_col = gi) := by
    rintro ⟨-, hcol⟩
    exact hgi (hcol ▸ List.mem_map.mpr ⟨e, he, rfl⟩)
  simp only [processRow, if_neg hc]
  cases hds : (mapping.foldl (deltaWrite vm country y colIdx r) (s, [])).2 with
  | nil =>
    rw [writeCell_cells_other _ _ _ _ _ _ hne]
    exact deltaWrite_fold_value vm country y colIdx r mapping (s, []) hn e he
  | cons d ds =>
    rw [writeCell_cells_other _ _ _ _ _ _ hne]
    exact deltaWrite_fold_value vm country y colIdx r mapping (s, []) hn e he

theorem processRow_unresolved (vm : ValueMap) (mapping : List MappingEntry)
    (colIdx : String → Nat) (gi : Nat) (aggSum : Bool) (r : Nat) (country : String)
    (yOpt : Option Int) (s : Sheet)
    (hur : country = "" ∨ yOpt = none) (c' : Nat) (hc' : c' ∈ deltaCols colIdx mapping) :
    (processRow vm mapping colIdx gi aggSum r country yOpt s).cells r c' = CellV.none ∧
    (processRow vm mapping colIdx gi aggSum r country yOpt s).cells r gi = CellV.none := by
  have hgov : (processRow vm mapping colIdx gi aggSum r country yOpt s).cells r gi
      = CellV.none := by
    rw [processRow_gov]
    rcases hur with h | h
    · cases yOpt with
      | none => simp [rowDeltasOf]
      | some y => simp [rowDeltasOf, h]
    · rw [h]; simp [rowDeltasOf]
  refine ⟨?_, hgov⟩
  by_cases hcg : c' = gi
  · rw [hcg]; exact hgov
  have hne : ¬(r = r ∧ c' = gi) := fun hh => hcg hh.2
  rcases hur with h | h
  · cases yOpt with
    | none =>
      simp only [processRow]
      rw [writeCell_cells_other _ _ _ _ _ _ hne]
      exact noneWrite_fold_value colIdx r mapping s c' hc'
    | some y =>
      simp only [processRow, h, if_true]
      rw [writeCell_cells_other _ _ _ _ _ _ hne]
      exact noneWrite_fold_value colIdx r mapping s c' hc'
  · rw [h]
    simp only [processRow]
    rw [writeCell_cells_other _ _ _ _ _ _ hne]
    exact noneWrite_fold_value colIdx r mapping s c' hc'

theorem rowStep_ok (vm : ValueMap) (mapping : List MappingEntry) (colIdx : String → Nat)
    (gi : Nat) (aggSum : Bool) (ci yi : Nat) (s : Sheet) (r : Nat) (yOpt : Option Int)
    (hy : as_year (s.cells r yi) = .ok yOpt) :
    rowStep vm mapping colIdx gi aggSum ci yi s r =
      .ok (processRow vm mapping colIdx gi aggSum r (as_country_code (s.cells r ci)) yOpt s) := by
  simp [rowStep, hy, Bind.bind, Except.bind]
  rfl

/-- C1 (confirmed): for a row with a resolvable country and year, each
mapping entry in table order writes `direction * (cur - pre)` into its
destination cell and contributes it to the aggregation collection when
both year values are present; when either is absent the entry's cell is
written explicitly empty (the column slot stays occupied) and the entry
contributes nothing to the aggregation collection (`rowDeltas` is exactly
the present deltas), which is what the aggregate cell is computed from. -/
theorem c1_delta_cells (vm : ValueMap) (mapping : List MappingEntry)
    (colIdx : String → Nat) (gi : Nat) (aggSum : Bool) (ci yi r : Nat) (s : Sheet)
    (y : Int)
    (hn : (deltaCols colIdx mapping).Nodup) (hgi : gi ∉ deltaCols colIdx mapping)
    (hc : as_country_code (s.cells r ci) ≠ "")
    (hy : as_year (s.cells r yi) = .ok (some y))
    (e : MappingEntry) (he : e ∈ mapping) :
    ∃ out, rowStep vm mapping colIdx gi aggSum ci yi s r = .ok out ∧
      (∀ cur pre,
        vm.lookup (as_country_code (s.cells r ci), y, e.indicator) = some cur →
        vm.lookup (as_country_code (s.cells r ci), y - 1, e.indicator) = some pre →
        out.cells r (colIdx e.delta_col) = .num (pyMul e.direction (pySub cur pre)) ∧
        pyMul e.direction (pySub cur pre) ∈
          rowDeltas vm (as_country_code (s.cells r ci)) y mapping) ∧
      ((vm.lookup (as_country_code (s.cells r ci), y, e.indicator) = none ∨
        vm.lookup (as_country_code (s.cells r ci), y - 1, e.indicator) = none) →
        out.cells r (colIdx e.delta_col) = CellV.none ∧
        entryDelta vm (as_country_code (s.cells r ci)) y e = none) ∧
      out.cells r gi =
        (match rowDeltas vm (as_country_code (s.cells r ci)) y mapping with
         | [] => CellV.none
         | ds => .num (if aggSum then pySum ds else pyMean ds)) := by
  refine ⟨_, rowStep_ok vm mapping colIdx gi aggSum ci yi s r (some y) hy, ?_, ?_, ?_⟩
  · intro cur pre hcur hpre
    have hd : entryDelta vm (as_country_code (s.cells r ci)) y e =
        some (pyMul e.direction (pySub cur pre)) := by
      simp [entryDelta, hcur, hpre]
    constructor
    · rw [processRow_delta_resolved vm mapping colIdx gi aggSum r _ y s hn hgi hc e he, hd]
      rfl
    · exact List.mem_filterMap.mpr ⟨e, he, hd⟩
  · intro habs
    have hd : entryDelta vm (as_country_code (s.cells r ci)) y e = none := by
      rcases habs with h | h
      · simp [entryDelta, h]
      · rw [entryDelta, h]
        cases vm.lookup (as_country_code (s.cells r ci), y, e.indicator) <;> rfl
    refine ⟨?_, hd⟩
    rw [processRow_delta_resolved vm mapping colIdx gi aggSum r _ y s hn hgi hc e he, hd]
    rfl
  · rw [processRow_gov]
    simp [rowDeltasOf, hc]

/-- C2 (confirmed): for every row, the aggregate cell is explicitly empty
exactly when the aggregation collection is empty (no deltas computed —
through absence of data or an unresolvable row), and otherwise carries the
sum of the collected deltas in `sum` mode and their mean (exact sum
divided by the count) in `mean` mode, with no other transform. -/
theorem c2_aggregate (vm : ValueMap) (mapping : List MappingEntry)
    (colIdx : String → Nat) (gi : Nat) (aggSum : Bool) (ci yi r : Nat) (s : Sheet)
    (yOpt : Option Int) (hy : as_year (s.cells r yi) = .ok yOpt) :
    ∃ out, rowStep vm mapping colIdx gi aggSum ci yi s r = .ok out ∧
      out.cells r gi =
        (if (rowDeltasOf vm mapping (as_country_code (s.cells r ci)) yOpt).isEmpty
         then CellV.none
         else .num (if aggSum
           then pySum (rowDeltasOf vm mapping (as_country_code (s.cells r ci)) yOpt)
           else pyMean (rowDeltasOf vm mapping (as_country_code (s.cells r ci)) yOpt))) ∧
      pyMean (rowDeltasOf vm mapping (as_country_code (s.cells r ci)) yOpt) =
        pyDivNat (pySum (rowDeltasOf vm mapping (as_country_code (s.cells r ci)) yOpt))
          (rowDeltasOf vm mapping (as_country_code (s.cells r ci)) yOpt).length := by
  refine ⟨_, rowStep_ok vm mapping colIdx gi aggSum ci yi s r yOpt hy, ?_, rfl⟩
  rw [processRow_gov]
  cases rowDeltasOf vm mapping (as_country_code (s.cells r ci)) yOpt <;> simp

/-- C5 (counterexample): a guide row with a blank country cell but an
infinite numeric year cell is NOT written with absent cells — the year
resolution raises an uncaught `OverflowError` (before the country check),
aborting the run — contradicting "regardless of the other field's
value". -/
theorem c5_counterexample :
    as_country_code
        ((⟨2, 2, fun r c => if r = 2 ∧ c = 2 then .str "inf" else CellV.none⟩ : Sheet).cells 2 1)
      = "" ∧
    rowStep [] [⟨"d1", "i1", .finite ⟨1, 1⟩⟩] (fun _ => 3) 4 false 1 2
        ⟨2, 2, fun r c => if r = 2 ∧ c = 2 then .str "inf" else CellV.none⟩ 2 =
      .error .overflowError := by
  refine ⟨by decide, by rfl⟩

/-- C5 (amended): for every guide row whose country cell is blank or whose
year cell resolves to absent — provided the year cell's text does not
parse to an infinite float, which instead aborts the run — every delta
cell and the aggregate cell are written explicitly empty, overwriting any
prior contents; the row itself is still written. -/
theorem c5_unresolved_row (vm : ValueMap) (mapping : List MappingEntry)
    (colIdx : String → Nat) (gi : Nat) (aggSum : Bool) (ci yi r : Nat) (s : Sheet)
    (yOpt : Option Int) (hy : as_year (s.cells r yi) = .ok yOpt)
    (hur : as_country_code (s.cells r ci) = "" ∨ yOpt = none) :
    ∃ out, rowStep vm mapping colIdx gi aggSum ci yi s r = .ok out ∧
      (∀ e ∈ mapping, out.cells r (colIdx e.delta_col) = CellV.none) ∧
      out.cells r gi = CellV.none := by
  refine ⟨_, rowStep_ok vm mapping colIdx gi aggSum ci yi s r yOpt hy, ?_, ?_⟩
  · intro e he
    exact (processRow_unresolved vm mapping colIdx gi aggSum r _ yOpt s hur
      (colIdx e.delta_col) (List.mem_map.mpr ⟨e, he, rfl⟩)).1
  · cases mapping with
    | nil =>
      rw [processRow_gov]
      rcases hur with h | h
      · cases yOpt <;> simp [rowDeltasOf, h, rowDeltas]
      · rw [h]; simp [rowDeltasOf]
    | cons e0 rest =>
      exact (processRow_unresolved vm (e0 :: rest) colIdx gi aggSum r _ yOpt s hur
        (colIdx e0.delta_col) (List.mem_map.mpr ⟨e0, List.mem_cons_self _ _, rfl⟩)).2

/-- C1 (witness): the spec scenario — country `USA`, year 2015, indicator
`NY.GDP.MKTP.CD`, cur = 100, pre = 90, direction 1 — writes the delta 10. -/
theorem c1_delta_cells_witness :
    ∃ out, rowStep
        [(("USA", 2015, "NY.GDP.MKTP.CD"), .finite ⟨100, 1⟩),
         (("USA", 2014, "NY.GDP.MKTP.CD"), .finite ⟨90, 1⟩)]
        [⟨"d1", "NY.GDP.MKTP.CD", .finite ⟨1, 1⟩⟩] (fun _ => 3) 4 false 1 2
        ⟨2, 2, fun r c =>
          if r = 2 ∧ c = 1 then .str "USA"
          else if r = 2 ∧ c = 2 then .num (.finite ⟨2015, 1⟩)
          else CellV.none⟩ 2 = .ok out ∧
      out.cells 2 3 = CellV.num (.finite ⟨10, 1⟩) := by
  obtain ⟨out, hok, h1, h2, hg⟩ := c1_delta_cells
    [(("USA", 2015, "NY.GDP.MKTP.CD"), .finite ⟨100, 1⟩),
     (("USA", 2014, "NY.GDP.MKTP.CD"), .finite ⟨90, 1⟩)]
    [⟨"d1", "NY.GDP.MKTP.CD", .finite ⟨1, 1⟩⟩] (fun _ => 3) 4 false 1 2 2
    ⟨2, 2, fun r c =>
      if r = 2 ∧ c = 1 then .str "USA"
      else if r = 2 ∧ c = 2 then .num (.finite ⟨2015, 1⟩)
      else CellV.none⟩ 2015
    (by decide) (by decide) (by decide) (by decide)
    ⟨"d1", "NY.GDP.MKTP.CD", .finite ⟨1, 1⟩⟩ (by decide)
  refine ⟨out, hok, ?_⟩
  have h3 := (h1 (.finite ⟨100, 1⟩) (.finite ⟨90, 1⟩) (by decide) (by decide)).1
  exact h3.trans (by decide)

/-- Concrete inputs of the C2 witness: 19 mapping entries with direction
1, current-year values 91..109 and previous-year values 90, so that the
19 deltas are 1..19 (sum 190, mean 10). -/
def c2Mapping : List MappingEntry :=
  (List.range 19).map fun k =>
    ⟨"d" ++ toString (k + 1), "i" ++ toString (k + 1), .finite ⟨1, 1⟩⟩

/-- The value panel of the C2 witness. -/
def c2Vm : ValueMap :=
  ((List.range 19).map fun k =>
    (("USA", (2015 : Int), "i" ++ toString (k + 1)), PyFloat.finite ⟨(k : Int) + 91, 1⟩)) ++
  ((List.range 19).map fun k =>
    (("USA", (2014 : Int), "i" ++ toString (k + 1)), PyFloat.finite ⟨90, 1⟩))

/-- The guide sheet of the C2 witness. -/
def c2Sheet : Sheet :=
  ⟨2, 2, fun r c =>
    if r = 2 ∧ c = 1 then .str "USA"
    else if r = 2 ∧ c = 2 then .num (.finite ⟨2015, 1⟩)
    else CellV.none⟩

/-- C2 (witness): the spec scenario — 19 deltas 1..19 under `mean` yield
the aggregate 10 (190 / 19). -/
theorem c2_aggregate_witness :
    ∃ out, rowStep c2Vm c2Mapping (fun _ => 3) 4 false 1 2 c2Sheet 2 = .ok out ∧
      out.cells 2 4 = CellV.num (.finite ⟨10, 1⟩) := by
  obtain ⟨out, hok, hcell, -⟩ := c2_aggregate c2Vm c2Mapping (fun _ => 3) 4 false 1 2 2
    c2Sheet (some 2015) (by decide)
  exact ⟨out, hok, hcell.trans (by decide)⟩

/-- C5 (witness): the amended claim at a concrete row with a blank
country cell, a resolvable year and a stale prior value in the delta
column: the delta cell and the aggregate cell both come out explicitly
empty. -/
theorem c5_unresolved_row_witness :
    ∃ out, rowStep [] [⟨"d1", "i1", .finite ⟨1, 1⟩⟩] (fun _ => 3) 4 false 1 2
        ⟨2, 3, fun r c =>
          if r = 2 ∧ c = 2 then .num (.finite ⟨2015, 1⟩)
          else if r = 2 ∧ c = 3 then .num (.finite ⟨99, 1⟩)
          else CellV.none⟩ 2 = .ok out ∧
      out.cells 2 3 = CellV.none ∧ out.cells 2 4 = CellV.none := by
  obtain ⟨out, hok, hdeltas, hgov⟩ := c5_unresolved_row [] [⟨"d1", "i1", .finite ⟨1, 1⟩⟩]
    (fun _ => 3) 4 false 1 2 2
    ⟨2, 3, fun r c =>
      if r = 2 ∧ c = 2 then .num (.finite ⟨2015, 1⟩)
      else if r = 2 ∧ c = 3 then .num (.finite ⟨99, 1⟩)
      else CellV.none⟩ (some 2015) (by decide) (Or.inl (by decide))
  exact ⟨out, hok, hdeltas ⟨"d1", "i1", .finite ⟨1, 1⟩⟩ (by decide), hgov⟩

theorem exceptBind_error {α β : Type} (x : Except PyErr α) (f : α → Except PyErr β)
    (e : PyErr) (h : x = .error e) : (x >>= f) = .error e := by
  rw [h]; rfl

theorem exceptBind_ok (x : Except PyErr α) (f : α → Except PyErr β) (a : α)
    (h : x = .ok a) : (x >>= f) = f a := by
  rw [h]; rfl

theorem exceptBind_ok_elim {α β : Type} (x : Except PyErr α) (f : α → Except PyErr β)
    (b : β) (h : (x >>= f) = .ok b) : ∃ a, x = .ok a ∧ f a = .ok b := by
  cases x with
  | ok a => exact ⟨a, rfl, h⟩
  | error e =>
    simp only [Bind.bind, Except.bind] at h
    exact Except.noConfusion h

/-- C6 (confirmed): every loading/validation failure — bad mapping count,
no csv member in the archive, missing identifying or year columns in the
panel, unresolvable guide columns, or any error inside the row loop —
propagates out of `runMain` as an error, and an error result models the
run aborting with no output file written; conversely the output sheet is
produced (the file saved) only when every stage succeeded and the row loop
ran over the entire table. -/
theorem c6_no_partial_output (mrows : List MappingRecord)
    (z : List (String × CsvFile)) (g : Sheet) (co yo : Option String) (aggSum : Bool) :
    (∀ e, load_mapping mrows = .error e → runMain mrows z g co yo aggSum = .error e) ∧
    (∀ m e, load_mapping mrows = .ok m →
      find_data_csv_in_zip (z.map Prod.fst) = .error e →
      runMain mrows z g co yo aggSum = .error e) ∧
    (∀ m n e, load_mapping mrows = .ok m →
      find_data_csv_in_zip (z.map Prod.fst) = .ok n →
      load_wb_values ((z.lookup n).getD ⟨[], []⟩) = .error e →
      runMain mrows z g co yo aggSum = .error e) ∧
    (∀ m n vm e, load_mapping mrows = .ok m →
      find_data_csv_in_zip (z.map Prod.fst) = .ok n →
      load_wb_values ((z.lookup n).getD ⟨[], []⟩) = .ok vm →
      enrich co yo aggSum m vm g = .error e →
      runMain mrows z g co yo aggSum = .error e) ∧
    (∀ out, runMain mrows z g co yo aggSum = .ok out →
      ∃ m n vm ci yi, load_mapping mrows = .ok m ∧
        find_data_csv_in_zip (z.map Prod.fst) = .ok n ∧
        load_wb_values ((z.lookup n).getD ⟨[], []⟩) = .ok vm ∧
        find_header_col (headerMap g) co countryFallbacks = .ok ci ∧
        find_header_col (headerMap g) yo yearFallbacks = .ok yi ∧
        processRows vm m (fun nm => ((ensureDeltaCols m (initEnsure g)).idx nm).getD 0)
          (ensureGov (ensureDeltaCols m (initEnsure g))).2 aggSum ci yi
          (ensureGov (ensureDeltaCols m (initEnsure g))).1 = .ok out) := by
  refine ⟨?_, ?_, ?_, ?_, ?_⟩
  · intro e h
    exact exceptBind_error _ _ _ h
  · intro m e hm h
    rw [runMain, exceptBind_ok _ _ _ hm]
    exact exceptBind_error _ _ _ h
  · intro m n e hm hn h
    rw [runMain, exceptBind_ok _ _ _ hm, exceptBind_ok _ _ _ hn]
    exact exceptBind_error _ _ _ h
  · intro m n vm e hm hn hvm h
    rw [runMain, exceptBind_ok _ _ _ hm, exceptBind_ok _ _ _ hn,
      exceptBind_ok _ _ _ hvm]
    exact h
  · intro out h
    rw [runMain] at h
    obtain ⟨m, hm, h⟩ := exceptBind_ok_elim _ _ _ h
    obtain ⟨n, hn, h⟩ := exceptBind_ok_elim _ _ _ h
    obtain ⟨vm, hvm, h⟩ := exceptBind_ok_elim _ _ _ h
    rw [enrich] at h
    obtain ⟨ci, hci, h⟩ := exceptBind_ok_elim _ _ _ h
    obtain ⟨yi, hyi, h⟩ := exceptBind_ok_elim _ _ _ h
    exact ⟨m, n, vm, ci, yi, hm, hn, hvm, hci, hyi, h⟩

/-- The 19 valid mapping records used by the C6 witness. -/
def c6Mapping : List MappingRecord :=
  (List.range 19).map fun k =>
    ⟨some ("d" ++ toString (k + 1)), some ("i" ++ toString (k + 1)), some "1"⟩

/-- C6 (witness): with a valid 19-entry mapping but an archive holding no
csv member, the run fails with the archive error and produces no output. -/
theorem c6_no_partial_output_witness :
    runMain c6Mapping [("notes.txt", ⟨[], []⟩)] ⟨1, 1, fun _ _ => CellV.none⟩
      none none false = .error .noCsvInZip := by
  exact (c6_no_partial_output c6Mapping [("notes.txt", ⟨[], []⟩)]
      ⟨1, 1, fun _ _ => CellV.none⟩ none none false).2.1
    (validMappingEntries c6Mapping) .noCsvInZip (by decide) (by decide)

theorem foldl_hmStep_mem (s : Sheet) (l : List Nat) (m0 : String → Option Nat)
    (k : String) (c : Nat) (h : (l.foldl (hmStep s) m0) k = some c) :
    c ∈ l ∨ m0 k = some c := by
  induction l generalizing m0 with
  | nil => exact Or.inr h
  | cons a t ih =>
    rcases ih (hmStep s m0 a) h with hmem | hstep
    · exact Or.inl (List.mem_cons_of_mem _ hmem)
    · rw [hmStep] at hstep
      cases hc : s.cells 1 a with
      | none => rw [hc] at hstep; exact Or.inr hstep
      | str t' =>
        rw [hc] at hstep
        by_cases hk : k = normHeader (cellStr (.str t'))
        · simp only [hk, if_pos rfl] at hstep
          exact Or.inl (by rw [← Option.some.inj hstep]; exact List.mem_cons_self _ _)
        · simp only [if_neg hk] at hstep
          exact Or.inr hstep
      | num x =>
        rw [hc] at hstep
        by_cases hk : k = normHeader (cellStr (.num x))
        · simp only [hk, if_pos rfl] at hstep
          exact Or.inl (by rw [← Option.some.inj hstep]; exact List.mem_cons_self _ _)
        · simp only [if_neg hk] at hstep
          exact Or.inr hstep

theorem headerMap_bound (s : Sheet) (k : String) (c : Nat)
    (h : headerMap s k = some c) : 1 ≤ c ∧ c ≤ s.maxCol := by
  rcases foldl_hmStep_mem s _ _ k c h with hmem | hnone
  · have := List.mem_range'_1.mp hmem
    exact ⟨this.1, by omega⟩
  · exact Option.noConfusion hnone

/-- The bookkeeping invariant of the ensure-columns phase: every column
recorded in the header map or in `delta_col_indices` lies strictly below
`next_col`, and the sheet's column count is exactly `next_col - 1`. -/
def EnsInv (st : EnsureState) : Prop :=
  (∀ k c, st.hm k = some c → c + 1 ≤ st.nextCol) ∧
  (∀ nm c, st.idx nm = some c → c + 1 ≤ st.nextCol) ∧
  st.s.maxCol + 1 = st.nextCol

theorem ensureStep_inv (st : EnsureState) (e : MappingEntry) (h : EnsInv st) :
    EnsInv (ensureStep st e) := by
  obtain ⟨hhm, hidx, hmc⟩ := h
  cases hk : st.hm (normHeader e.delta_col) with
  | some c =>
    simp only [EnsInv, ensureStep, hk]
    refine ⟨hhm, ?_, hmc⟩
    intro nm c' hc'
    simp only [updMap] at hc'
    by_cases hnm : nm = e.delta_col
    · rw [if_pos hnm] at hc'
      exact Option.some.inj hc' ▸ hhm _ _ hk
    · rw [if_neg hnm] at hc'
      exact hidx _ _ hc'
  | none =>
    simp only [EnsInv, ensureStep, hk, writeCell]
    refine ⟨?_, ?_, ?_⟩
    · intro k c' hc'
      simp only [updMap] at hc'
      by_cases hkk : k = normHeader e.delta_col
      · rw [if_pos hkk] at hc'
        have : st.nextCol = c' := Option.some.inj hc'
        omega
      · rw [if_neg hkk] at hc'
        have := hhm _ _ hc'
        omega
    · intro nm c' hc'
      simp only [updMap] at hc'
      by_cases hnm : nm = e.delta_col
      · rw [if_pos hnm] at hc'
        have : st.nextCol = c' := Option.some.inj hc'
        omega
      · rw [if_neg hnm] at hc'
        have := hidx _ _ hc'
        omega
    · omega

theorem ensure_inv (mapping : List MappingEntry) (st : EnsureState) (h : EnsInv st) :
    EnsInv (ensureDeltaCols mapping st) := by
  induction mapping generalizing st with
  | nil => exact h
  | cons e rest ih => exact ih _ (ensureStep_inv st e h)

theorem ensureStep_nextCol (st : EnsureState) (e : MappingEntry) :
    st.nextCol ≤ (ensureStep st e).nextCol := by
  cases hk : st.hm (normHeader e.delta_col) <;> simp [ensureStep, hk]

theorem ensure_nextCol_mono (mapping : List MappingEntry) (st : EnsureState) :
    st.nextCol ≤ (ensureDeltaCols mapping st).nextCol := by
  induction mapping generalizing st with
  | nil => exact le_refl _
  | cons e rest ih => exact le_trans (ensureStep_nextCol st e) (ih (ensureStep st e))

theorem ensure_cells_frame (mapping : List MappingEntry) (st : EnsureState)
    (r c : Nat) (h : r ≠ 1 ∨ c < st.nextCol) :
    (ensureDeltaCols mapping st).s.cells r c = st.s.cells r c := by
  induction mapping generalizing st with
  | nil => rfl
  | cons e rest ih =>
    show (ensureDeltaCols rest (ensureStep st e)).s.cells r c = _
    have hmono : st.nextCol ≤ (ensureStep st e).nextCol := ensureStep_nextCol st e
    have h' : r ≠ 1 ∨ c < (ensureStep st e).nextCol := by
      rcases h with h | h
      · exact Or.inl h
      · exact Or.inr (lt_of_lt_of_le h hmono)
    rw [ih (ensureStep st e) h']
    cases hk : st.hm (normHeader e.delta_col) with
    | some c0 => simp [ensureStep, hk]
    | none =>
      simp only [ensureStep, hk]
      refine writeCell_cells_other _ _ _ _ _ _ ?_
      rintro ⟨hr, hc⟩
      rcases h with h | h
      · exact h hr
      · exact Nat.lt_irrefl _ (hc ▸ h)

theorem ensure_maxRow (mapping : List MappingEntry) (st : EnsureState)
    (h : 1 ≤ st.s.maxRow) : (ensureDeltaCols mapping st).s.maxRow = st.s.maxRow := by
  induction mapping generalizing st with
  | nil => rfl
  | cons e rest ih =>
    show (ensureDeltaCols rest (ensureStep st e)).s.maxRow = _
    cases hk : st.hm (normHeader e.delta_col) with
    | some c0 =>
      rw [ih (ensureStep st e) (by simp [ensureStep, hk]; exact h)]
      simp [ensureStep, hk]
    | none =>
      have hmr : (ensureStep st e).s.maxRow = st.s.maxRow := by
        simp only [ensureStep, hk, writeCell]
        omega
      rw [ih (ensureStep st e) (by rw [hmr]; exact h), hmr]

theorem ensureGov_props (st : EnsureState) (hinv : EnsInv st) :
    st.s.maxCol ≤ (ensureGov st).1.maxCol ∧
    (ensureGov st).2 ≤ (ensureGov st).1.maxCol ∧
    (1 ≤ st.s.maxRow → (ensureGov st).1.maxRow = st.s.maxRow) ∧
    (∀ r c, (r ≠ 1 ∨ c ≤ st.s.maxCol) → (ensureGov st).1.cells r c = st.s.cells r c) ∧
    (∀ nm c, st.idx nm = some c → c ≤ (ensureGov st).1.maxCol) := by
  obtain ⟨hhm, hidx, hmc⟩ := hinv
  cases hk : st.hm (normHeader "gov_expected_changes") with
  | some c0 =>
    simp only [ensureGov, hk]
    have hb := hhm _ _ hk
    refine ⟨le_refl _, by omega, fun _ => trivial, fun r c _ => trivial, ?_⟩
    intro nm c hc
    have := hidx _ _ hc
    omega
  | none =>
    simp only [ensureGov, hk, writeCell]
    refine ⟨by omega, by omega, fun h => by omega, ?_, ?_⟩
    · intro r c h
      refine if_neg ?_
      rintro ⟨hr, hc⟩
      rcases h with h | h
      · exact h hr
      · omega
    · intro nm c hc
      have := hidx _ _ hc
      omega

theorem deltaWrite_fold_bounds (vm : ValueMap) (country : String) (year : Int)
    (colIdx : String → Nat) (r : Nat) (mapping : List MappingEntry)
    (acc : Sheet × List PyFloat) (hr : r ≤ acc.1.maxRow)
    (hcols : ∀ e ∈ mapping, colIdx e.delta_col ≤ acc.1.maxCol) :
    (mapping.foldl (deltaWrite vm country year colIdx r) acc).1.maxRow = acc.1.maxRow ∧
    (mapping.foldl (deltaWrite vm country year colIdx r) acc).1.maxCol = acc.1.maxCol := by
  induction mapping generalizing acc with
  | nil => exact ⟨rfl, rfl⟩
  | cons e rest ih =>
    rw [List.foldl_cons]
    have hce := hcols e (List.mem_cons_self _ _)
    have hb : ∀ v, (writeCell acc.1 r (colIdx e.delta_col) v).maxRow = acc.1.maxRow ∧
        (writeCell acc.1 r (colIdx e.delta_col) v).maxCol = acc.1.maxCol := by
      intro v
      rw [writeCell]
      constructor <;> simp <;> omega
    cases hd : entryDelta vm country year e with
    | some d =>
      have := ih (writeCell acc.1 r (colIdx e.delta_col) (.num d), acc.2 ++ [d])
        (by rw [(hb _).1]; exact hr)
        (by intro e' he'; rw [(hb _).2]; exact hcols e' (List.mem_cons_of_mem _ he'))
      simp only [deltaWrite, hd] at this ⊢
      rw [this.1, this.2, (hb _).1, (hb _).2]
      exact ⟨rfl, rfl⟩
    | none =>
      have := ih (writeCell acc.1 r (colIdx e.delta_col) CellV.none, acc.2)
        (by rw [(hb _).1]; exact hr)
        (by intro e' he'; rw [(hb _).2]; exact hcols e' (List.mem_cons_of_mem _ he'))
      simp only [deltaWrite, hd] at this ⊢
      rw [this.1, this.2, (hb _).1, (hb _).2]
      exact ⟨rfl, rfl⟩

theorem noneWrite_fold_bounds (colIdx : String → Nat) (r : Nat)
    (mapping : List MappingEntry) (s : Sheet) (hr : r ≤ s.maxRow)
    (hcols : ∀ e ∈ mapping, colIdx e.delta_col ≤ s.maxCol) :
    (mapping.foldl (fun sh e => writeCell sh r (colIdx e.delta_col) CellV.none) s).maxRow
      = s.maxRow ∧
    (mapping.foldl (fun sh e => writeCell sh r (colIdx e.delta_col) CellV.none) s).maxCol
      = s.maxCol := by
  induction mapping generalizing s with
  | nil => exact ⟨rfl, rfl⟩
  | cons e rest ih =>
    rw [List.foldl_cons]
    have hce := hcols e (List.mem_cons_self _ _)
    have hb : (writeCell s r (colIdx e.delta_col) CellV.none).maxRow = s.maxRow ∧
        (writeCell s r (colIdx e.delta_col) CellV.none).maxCol = s.maxCol := by
      rw [writeCell]
      constructor <;> simp <;> omega
    have := ih (writeCell s r (colIdx e.delta_col) CellV.none)
      (by rw [hb.1]; exact hr)
      (by intro e' he'; rw [hb.2]; exact hcols e' (List.mem_cons_of_mem _ he'))
    rw [this.1, this.2, hb.1, hb.2]
    exact ⟨rfl, rfl⟩

theorem processRow_bounds (vm : ValueMap) (mapping : List MappingEntry)
    (colIdx : String → Nat) (gi : Nat) (aggSum : Bool) (r : Nat) (country : String)
    (yOpt : Option Int) (s : Sheet) (hr : r ≤ s.maxRow)
    (hcols : ∀ e ∈ mapping, colIdx e.delta_col ≤ s.maxCol) (hgi : gi ≤ s.maxCol) :
    (processRow vm mapping colIdx gi aggSum r country yOpt s).maxRow = s.maxRow ∧
    (processRow vm mapping colIdx gi aggSum r country yOpt s).maxCol = s.maxCol := by
  have hgov : ∀ (sh : Sheet) (v : CellV), sh.maxRow = s.maxRow → sh.maxCol = s.maxCol →
      (writeCell sh r gi v).maxRow = s.maxRow ∧ (writeCell sh r gi v).maxCol = s.maxCol := by
    intro sh v h1 h2
    rw [writeCell]
    constructor <;> simp <;> omega
  cases yOpt with
  | none =>
    have hb := noneWrite_fold_bounds colIdx r mapping s hr hcols
    simp only [processRow]
    exact hgov _ _ hb.1 hb.2
  | some y =>
    by_cases hc : country = ""
    · simp only [processRow, hc, if_true]
      have hb := noneWrite_fold_bounds colIdx r mapping s hr hcols
      exact hgov _ _ hb.1 hb.2
    · simp only [processRow, if_neg hc]
      have hb := deltaWrite_fold_bounds vm country y colIdx r mapping (s, []) hr hcols
      cases hds : (mapping.foldl (deltaWrite vm country y colIdx r) (s, [])).2 with
      | nil => exact hgov _ _ hb.1 hb.2
      | cons d ds => exact hgov _ _ hb.1 hb.2

theorem processRow_frame (vm : ValueMap) (mapping : List MappingEntry)
    (colIdx : String → Nat) (gi : Nat) (aggSum : Bool) (r : Nat) (country : String)
    (yOpt : Option Int) (s : Sheet) (r' c' : Nat)
    (h : ¬(r' = r ∧ (c' ∈ deltaCols colIdx mapping ∨ c' = gi))) :
    (processRow vm mapping colIdx gi aggSum r country yOpt s).cells r' c' =
      s.cells r' c' := by
  have hgov : ¬(r' = r ∧ c' = gi) := fun hh => h ⟨hh.1, Or.inr hh.2⟩
  have hfold : r' ≠ r ∨ c' ∉ deltaCols colIdx mapping := by
    by_cases hr : r' = r
    · exact Or.inr fun hm => h ⟨hr, Or.inl hm⟩
    · exact Or.inl hr
  cases yOpt with
  | none =>
    simp only [processRow]
    rw [writeCell_cells_other _ _ _ _ _ _ hgov]
    exact noneWrite_fold_frame colIdx r mapping s r' c' hfold
  | some y =>
    by_cases hc : country = ""
    · simp only [processRow, hc, if_true]
      rw [writeCell_cells_other _ _ _ _ _ _ hgov]
      exact noneWrite_fold_frame colIdx r mapping s r' c' hfold
    · simp only [processRow, if_neg hc]
      cases hds : (mapping.foldl (deltaWrite vm country y colIdx r) (s, [])).2 with
      | nil =>
        rw [writeCell_cells_other _ _ _ _ _ _ hgov]
        exact deltaWrite_fold_frame vm country y colIdx r mapping (s, []) r' c' hfold
      | cons d ds =>
        rw [writeCell_cells_other _ _ _ _ _ _ hgov]
        exact deltaWrite_fold_frame vm country y colIdx r mapping (s, []) r' c' hfold

theorem rowStep_elim (vm : ValueMap) (mapping : List MappingEntry)
    (colIdx : String → Nat) (gi : Nat) (aggSum : Bool) (ci yi : Nat) (s : Sheet)
    (r : Nat) (out : Sheet)
    (h : rowStep vm mapping colIdx gi aggSum ci yi s r = .ok out) :
    ∃ yOpt, as_year (s.cells r yi) = .ok yOpt ∧
      out = processRow vm mapping colIdx gi aggSum r (as_country_code (s.cells r ci)) yOpt s := by
  cases hy : as_year (s.cells r yi) with
  | ok yOpt =>
    rw [rowStep_ok vm mapping colIdx gi aggSum ci yi s r yOpt hy] at h
    exact ⟨yOpt, rfl, (Except.ok.inj h).symm⟩
  | error e =>
    rw [rowStep] at h
    simp only [hy, Bind.bind, Except.bind] at h
    exact Except.noConfusion h

theorem rows_fold_props (vm : ValueMap) (mapping : List MappingEntry)
    (colIdx : String → Nat) (gi : Nat) (aggSum : Bool) (ci yi : Nat)
    (L : List Nat) (s out : Sheet)
    (hcols : ∀ e ∈ mapping, colIdx e.delta_col ≤ s.maxCol) (hgi : gi ≤ s.maxCol)
    (hL : ∀ r ∈ L, r ≤ s.maxRow)
    (h : L.foldlM (rowStep vm mapping colIdx gi aggSum ci yi) s = .ok out) :
    out.maxRow = s.maxRow ∧ out.maxCol = s.maxCol ∧
    ∀ r' c', out.cells r' c' ≠ s.cells r' c' →
      r' ∈ L ∧ (c' ∈ deltaCols colIdx mapping ∨ c' = gi) := by
  induction L generalizing s with
  | nil =>
    have : s = out := Except.ok.inj h
    subst this
    exact ⟨rfl, rfl, fun r' c' hne => absurd rfl hne⟩
  | cons r rest ih =>
    rw [List.foldlM_cons] at h
    obtain ⟨s1, hs1, hrest⟩ := exceptBind_ok_elim _ _ _ h
    obtain ⟨yOpt, hy, hout1⟩ := rowStep_elim vm mapping colIdx gi aggSum ci yi s r s1 hs1
    have hb := processRow_bounds vm mapping colIdx gi aggSum r
      (as_country_code (s.cells r ci)) yOpt s (hL r (List.mem_cons_self _ _)) hcols hgi
    rw [← hout1] at hb
    have ih' := ih s1
      (fun e he => hb.2 ▸ hcols e he) (hb.2 ▸ hgi)
      (fun r' hr' => hb.1 ▸ hL r' (List.mem_cons_of_mem _ hr')) hrest
    refine ⟨ih'.1.trans hb.1, ih'.2.1.trans hb.2, ?_⟩
    intro r' c' hne
    by_cases h1 : out.cells r' c' = s1.cells r' c'
    · have hne1 : s1.cells r' c' ≠ s.cells r' c' := fun hh => hne (h1.trans hh)
      have : r' = r ∧ (c' ∈ deltaCols colIdx mapping ∨ c' = gi) := by
        by_contra hcon
        exact hne1 (hout1 ▸ processRow_frame vm mapping colIdx gi aggSum r _ yOpt s r' c' hcon)
      exact ⟨this.1 ▸ List.mem_cons_self _ _, this.2⟩
    · have := ih'.2.2 r' c' h1
      exact ⟨List.mem_cons_of_mem _ this.1, this.2⟩

theorem initEnsure_inv (s : Sheet) : EnsInv (initEnsure s) := by
  refine ⟨?_, ?_, rfl⟩
  · intro k c h
    have := (headerMap_bound s k c h).2
    simp only [initEnsure]
    omega
  · intro nm c h
    exact Option.noConfusion h

theorem enrich_ok_elim (co yo : Option String) (aggSum : Bool)
    (mapping : List MappingEntry) (vm : ValueMap) (s out : Sheet)
    (h : enrich co yo aggSum mapping vm s = .ok out) :
    ∃ ci yi, find_header_col (headerMap s) co countryFallbacks = .ok ci ∧
      find_header_col (headerMap s) yo yearFallbacks = .ok yi ∧
      processRows vm mapping
        (fun nm => ((ensureDeltaCols mapping (initEnsure s)).idx nm).getD 0)
        (ensureGov (ensureDeltaCols mapping (initEnsure s))).2 aggSum ci yi
        (ensureGov (ensureDeltaCols mapping (initEnsure s))).1 = .ok out := by
  rw [enrich] at h
  obtain ⟨ci, hci, h⟩ := exceptBind_ok_elim _ _ _ h
  obtain ⟨yi, hyi, h⟩ := exceptBind_ok_elim _ _ _ h
  exact ⟨ci, yi, hci, hyi, h⟩

/-- C8 (confirmed): a successful enrichment changes cells only in the
derived columns — header cells only for freshly appended columns beyond
the original right edge, and data cells only in rows 2..max_row inside
the 19 destination columns or the aggregate column; every other cell is
unchanged, and the row count (hence row order, as rows are only written
in place) is preserved. -/
theorem c8_frame (co yo : Option String) (aggSum : Bool) (mapping : List MappingEntry)
    (vm : ValueMap) (s out : Sheet) (hmr : 1 ≤ s.maxRow)
    (h : enrich co yo aggSum mapping vm s = .ok out) :
    out.maxRow = s.maxRow ∧
    ∀ r c, out.cells r c ≠ s.cells r c →
      (r = 1 ∧ s.maxCol < c) ∨
      (2 ≤ r ∧ r ≤ s.maxRow ∧
        (c ∈ deltaCols
            (fun nm => ((ensureDeltaCols mapping (initEnsure s)).idx nm).getD 0) mapping ∨
         c = (ensureGov (ensureDeltaCols mapping (initEnsure s))).2)) := by
  obtain ⟨ci, yi, hci, hyi, hrows⟩ := enrich_ok_elim co yo aggSum mapping vm s out h
  have hinv : EnsInv (ensureDeltaCols mapping (initEnsure s)) :=
    ensure_inv mapping (initEnsure s) (initEnsure_inv s)
  have hgv := ensureGov_props (ensureDeltaCols mapping (initEnsure s)) hinv
  have hstr : (ensureDeltaCols mapping (initEnsure s)).s.maxRow = s.maxRow :=
    ensure_maxRow mapping (initEnsure s) hmr
  have hs2r : (ensureGov (ensureDeltaCols mapping (initEnsure s))).1.maxRow = s.maxRow := by
    rw [hgv.2.2.1 (by rw [hstr]; exact hmr), hstr]
  rw [processRows] at hrows
  have hcols : ∀ e ∈ mapping,
      (fun nm => ((ensureDeltaCols mapping (initEnsure s)).idx nm).getD 0) e.delta_col ≤
        (ensureGov (ensureDeltaCols mapping (initEnsure s))).1.maxCol := by
    intro e he
    cases hx : (ensureDeltaCols mapping (initEnsure s)).idx e.delta_col with
    | none =>
      simp only [hx, Option.getD_none]
      exact Nat.zero_le _
    | some c =>
      simp only [hx, Option.getD_some]
      exact hgv.2.2.2.2 _ _ hx
  have hL : ∀ r ∈ List.range' 2
      ((ensureGov (ensureDeltaCols mapping (initEnsure s))).1.maxRow - 1),
      r ≤ (ensureGov (ensureDeltaCols mapping (initEnsure s))).1.maxRow := by
    intro r hr
    have := List.mem_range'_1.mp hr
    omega
  have hp := rows_fold_props vm mapping _ _ aggSum ci yi _ _ out hcols hgv.2.1 hL hrows
  refine ⟨hp.1.trans hs2r, ?_⟩
  intro r c hne
  by_cases h1 : out.cells r c =
      (ensureGov (ensureDeltaCols mapping (initEnsure s))).1.cells r c
  · -- the change happened in the ensure phase: row 1, beyond the old edge
    have hne1 : (ensureGov (ensureDeltaCols mapping (initEnsure s))).1.cells r c ≠
        s.cells r c := fun hh => hne (h1.trans hh)
    left
    by_contra hcon
    push_neg at hcon
    have hside : r ≠ 1 ∨ c ≤ s.maxCol := by
      by_cases hr1 : r = 1
      · exact Or.inr (hcon hr1)
      · exact Or.inl hr1
    have hsc : s.maxCol ≤ (ensureDeltaCols mapping (initEnsure s)).s.maxCol := by
      have hm := hinv.2.2
      have hmono := ensure_nextCol_mono mapping (initEnsure s)
      have h0 : (initEnsure s).nextCol = s.maxCol + 1 := rfl
      rw [h0] at hmono
      omega
    have hside2 : r ≠ 1 ∨ c ≤ (ensureDeltaCols mapping (initEnsure s)).s.maxCol := by
      rcases hside with hs | hs
      · exact Or.inl hs
      · exact Or.inr (le_trans hs hsc)
    have e1 := hgv.2.2.2.1 r c hside2
    have hside3 : r ≠ 1 ∨ c < (initEnsure s).nextCol := by
      rcases hside with hs | hs
      · exact Or.inl hs
      · refine Or.inr ?_
        have h0 : (initEnsure s).nextCol = s.maxCol + 1 := rfl
        omega
    have e2 := ensure_cells_frame mapping (initEnsure s) r c hside3
    exact hne1 (e1.trans e2)
  · -- the change happened in the row loop
    have := hp.2.2 r c h1
    have hmem := List.mem_range'_1.mp this.1
    right
    refine ⟨hmem.1, ?_, this.2⟩
    have := hmem.2
    rw [hs2r] at this
    omega

/-- C8 (witness): a concrete enrichment with one mapping entry appends
columns 3 (delta) and 4 (aggregate), keeps the row count at 2, and leaves
the country cell of the data row untouched. -/
theorem c8_frame_witness :
    ∃ out, enrich none none false [⟨"d1", "i1", .finite ⟨1, 1⟩⟩] []
        ⟨2, 2, fun r c =>
          if r = 1 ∧ c = 1 then .str "Country"
          else if r = 1 ∧ c = 2 then .str "Year"
          else if r = 2 ∧ c = 1 then .str "usa"
          else if r = 2 ∧ c = 2 then .num (.finite ⟨2015, 1⟩)
          else CellV.none⟩ = .ok out ∧
      out.maxRow = 2 ∧ out.cells 2 1 = .str "usa" := by
  cases henr : enrich none none false [⟨"d1", "i1", .finite ⟨1, 1⟩⟩] []
      ⟨2, 2, fun r c =>
        if r = 1 ∧ c = 1 then .str "Country"
        else if r = 1 ∧ c = 2 then .str "Year"
        else if r = 2 ∧ c = 1 then .str "usa"
        else if r = 2 ∧ c = 2 then .num (.finite ⟨2015, 1⟩)
        else CellV.none⟩ with
  | error e =>
    have hs : (enrich none none false [⟨"d1", "i1", .finite ⟨1, 1⟩⟩] []
        ⟨2, 2, fun r c =>
          if r = 1 ∧ c = 1 then .str "Country"
          else if r = 1 ∧ c = 2 then .str "Year"
          else if r = 2 ∧ c = 1 then .str "usa"
          else if r = 2 ∧ c = 2 then .num (.finite ⟨2015, 1⟩)
          else CellV.none⟩).toOption.isSome = true := by decide
    rw [henr] at hs
    simp [Except.toOption] at hs
  | ok out =>
    have hc8 := c8_frame none none false [⟨"d1", "i1", .finite ⟨1, 1⟩⟩] [] _ out
      (by decide) henr
    refine ⟨out, rfl, hc8.1, ?_⟩
    by_contra hne
    have hdiff : out.cells 2 1 ≠
        (⟨2, 2, fun r c =>
          if r = 1 ∧ c = 1 then .str "Country"
          else if r = 1 ∧ c = 2 then .str "Year"
          else if r = 2 ∧ c = 1 then .str "usa"
          else if r = 2 ∧ c = 2 then .num (.finite ⟨2015, 1⟩)
          else CellV.none⟩ : Sheet).cells 2 1 := by
      intro hh
      exact hne (hh.trans (by decide))
    rcases hc8.2 2 1 hdiff with ⟨h1, -⟩ | ⟨-, -, h3⟩
    · exact absurd h1 (by decide)
    · exact absurd h3 (by decide)

theorem foldl_hmStep_congr (s t : Sheet) (l : List Nat)
    (hc : ∀ c ∈ l, s.cells 1 c = t.cells 1 c) :
    ∀ m0, l.foldl (hmStep s) m0 = l.foldl (hmStep t) m0 := by
  induction l with
  | nil => intro m0; rfl
  | cons a tl ih =>
    intro m0
    rw [List.foldl_cons, List.foldl_cons]
    have hstep : hmStep s m0 a = hmStep t m0 a := by
      rw [hmStep, hmStep, hc a (List.mem_cons_self _ _)]
    rw [hstep]
    exact ih (fun c hcm => hc c (List.mem_cons_of_mem _ hcm)) _

theorem headerMap_congr (s t : Sheet) (hmc : s.maxCol = t.maxCol)
    (hc : ∀ c, 1 ≤ c → c ≤ s.maxCol → s.cells 1 c = t.cells 1 c) :
    headerMap s = headerMap t := by
  rw [headerMap, headerMap, hmc]
  refine foldl_hmStep_congr s t _ ?_ _
  intro c hcm
  have := List.mem_range'_1.mp hcm
  exact hc c this.1 (by omega)

theorem foldl_hmStep_key (s : Sheet) (l : List Nat) (m0 : String → Option Nat)
    (k : String) (c : Nat) (h : (l.foldl (hmStep s) m0) k = some c)
    (hm0 : m0 k = some c → s.cells 1 c ≠ CellV.none ∧
      normHeader (cellStr (s.cells 1 c)) = k) :
    s.cells 1 c ≠ CellV.none ∧ normHeader (cellStr (s.cells 1 c)) = k := by
  induction l generalizing m0 with
  | nil => exact hm0 h
  | cons a tl ih =>
    refine ih (hmStep s m0 a) h ?_
    intro hstep
    cases hcell : s.cells 1 a with
    | none =>
      simp only [hmStep, hcell] at hstep
      exact hm0 hstep
    | str t' =>
      simp only [hmStep, hcell] at hstep
      by_cases hk : k = normHeader (cellStr (.str t'))
      · rw [if_pos hk] at hstep
        have : a = c := Option.some.inj hstep
        subst this
        rw [hcell]
        exact ⟨fun hh => CellV.noConfusion hh, hk.symm⟩
      · rw [if_neg hk] at hstep
        exact hm0 hstep
    | num x =>
      simp only [hmStep, hcell] at hstep
      by_cases hk : k = normHeader (cellStr (.num x))
      · rw [if_pos hk] at hstep
        have : a = c := Option.some.inj hstep
        subst this
        rw [hcell]
        exact ⟨fun hh => CellV.noConfusion hh, hk.symm⟩
      · rw [if_neg hk] at hstep
        exact hm0 hstep

/-- A bound header key names the (normalized) text of its column's header
cell — so a column determines its key. -/
theorem headerMap_key (s : Sheet) (k : String) (c : Nat)
    (h : headerMap s k = some c) :
    s.cells 1 c ≠ CellV.none ∧ normHeader (cellStr (s.cells 1 c)) = k :=
  foldl_hmStep_key s _ _ k c h (fun hh => Option.noConfusion hh)

/-- Distinct keys are never bound to the same column. -/
theorem headerMap_inj (s : Sheet) (k1 k2 : String) (c : Nat)
    (h1 : headerMap s k1 = some c) (h2 : headerMap s k2 = some c) : k1 = k2 := by
  have e1 := (headerMap_key s k1 c h1).2
  have e2 := (headerMap_key s k2 c h2).2
  rw [← e1, ← e2]

theorem range'_snoc (n : Nat) : List.range' 1 (n + 1) = List.range' 1 n ++ [n + 1] := by
  have h := List.range'_append 1 n 1 1
  rw [Nat.one_mul] at h
  rw [Nat.add_comm n 1, ← h]
  rfl

/-- Appending a fresh header column extends the header map pointwise. -/
theorem headerMap_append (s : Sheet) (name : String) :
    headerMap (writeCell s 1 (s.maxCol + 1) (.str name)) =
      updMap (headerMap s) (normHeader name) (s.maxCol + 1) := by
  have hmc : (writeCell s 1 (s.maxCol + 1) (.str name)).maxCol = s.maxCol + 1 := by
    rw [writeCell]
    exact max_eq_right (Nat.le_succ _)
  rw [headerMap, hmc, range'_snoc, List.foldl_append]
  have hinner : (List.range' 1 s.maxCol).foldl
      (hmStep (writeCell s 1 (s.maxCol + 1) (.str name))) (fun _ => none) =
      headerMap s := by
    rw [headerMap]
    refine foldl_hmStep_congr _ s _ ?_ _
    intro c hcm
    have hb := List.mem_range'_1.mp hcm
    refine writeCell_cells_other _ _ _ _ _ _ ?_
    rintro ⟨-, hc⟩
    omega
  rw [hinner, List.foldl_cons, List.foldl_nil]
  have hcell : (writeCell s 1 (s.maxCol + 1) (.str name)).cells 1 (s.maxCol + 1) =
      .str name := writeCell_cells_self _ _ _ _
  funext x
  simp only [hmStep, hcell, updMap, cellStr]

theorem updMap_self (m : String → Option Nat) (k : String) (v : Nat) :
    updMap m k v k = some v := by
  simp [updMap]

theorem updMap_other (m : String → Option Nat) (k x : String) (v : Nat)
    (h : x ≠ k) : updMap m k v x = m x := by
  simp [updMap, h]

/-- The manually maintained header map of the ensure phase stays equal to
the recomputed header map of the evolving sheet. -/
theorem ensure_hm_headerMap (mapping : List MappingEntry) (st : EnsureState)
    (hinv : EnsInv st) (h : st.hm = headerMap st.s) :
    (ensureDeltaCols mapping st).hm = headerMap (ensureDeltaCols mapping st).s := by
  induction mapping generalizing st with
  | nil => exact h
  | cons e rest ih =>
    show (ensureDeltaCols rest (ensureStep st e)).hm = _
    refine ih (ensureStep st e) (ensureStep_inv st e hinv) ?_
    cases hk : st.hm (normHeader e.delta_col) with
    | some c => simp only [ensureStep, hk]; exact h
    | none =>
      simp only [ensureStep, hk]
      have hnc : st.nextCol = st.s.maxCol + 1 := hinv.2.2.symm
      rw [h, hnc]
      exact (headerMap_append st.s e.delta_col).symm

theorem ensure_preserve_idx (mapping : List MappingEntry) (st : EnsureState)
    (nm : String) (hnm : ∀ e ∈ mapping, e.delta_col ≠ nm) :
    (ensureDeltaCols mapping st).idx nm = st.idx nm := by
  induction mapping generalizing st with
  | nil => rfl
  | cons e rest ih =>
    have hrest := ih (ensureStep st e) (fun e' he' => hnm e' (List.mem_cons_of_mem _ he'))
    have hstep : (ensureStep st e).idx nm = st.idx nm := by
      cases hkk : st.hm (normHeader e.delta_col) with
      | some c =>
        simp only [ensureStep, hkk]
        exact updMap_other _ _ _ _ fun hh => hnm e (List.mem_cons_self _ _) hh.symm
      | none =>
        simp only [ensureStep, hkk]
        exact updMap_other _ _ _ _ fun hh => hnm e (List.mem_cons_self _ _) hh.symm
    exact hrest.trans hstep

theorem ensure_preserve_hm (mapping : List MappingEntry) (st : EnsureState)
    (k : String) (hk : ∀ e ∈ mapping, normHeader e.delta_col ≠ k) :
    (ensureDeltaCols mapping st).hm k = st.hm k := by
  induction mapping generalizing st with
  | nil => rfl
  | cons e rest ih =>
    have hrest := ih (ensureStep st e) (fun e' he' => hk e' (List.mem_cons_of_mem _ he'))
    have hstep : (ensureStep st e).hm k = st.hm k := by
      cases hkk : st.hm (normHeader e.delta_col) with
      | some c => simp only [ensureStep, hkk]
      | none =>
        simp only [ensureStep, hkk]
        exact updMap_other _ _ _ _ fun hh => hk e (List.mem_cons_self _ _) hh.symm
    exact hrest.trans hstep

theorem nodup_keys_names (mapping : List MappingEntry)
    (hnodup : (mapping.map fun e => normHeader e.delta_col).Nodup) :
    (mapping.map fun e => e.delta_col).Nodup := by
  have : (mapping.map fun e => normHeader e.delta_col) =
      (mapping.map fun e => e.delta_col).map normHeader := by
    rw [List.map_map]
    rfl
  rw [this] at hnodup
  exact hnodup.of_map

theorem ensure_idx_hm (mapping : List MappingEntry) (st : EnsureState)
    (hnodup : (mapping.map fun e => normHeader e.delta_col).Nodup) :
    ∀ e ∈ mapping, ∃ c, (ensureDeltaCols mapping st).idx e.delta_col = some c ∧
      (ensureDeltaCols mapping st).hm (normHeader e.delta_col) = some c := by
  induction mapping generalizing st with
  | nil => intro e he; exact absurd he (List.not_mem_nil e)
  | cons e0 rest ih =>
    intro e he
    have hkey0 : normHeader e0.delta_col ∉ rest.map fun e => normHeader e.delta_col :=
      (List.nodup_cons.mp hnodup).1
    rcases List.mem_cons.mp he with he0 | hrest
    · subst he0
      have hnames : ∀ e' ∈ rest, e'.delta_col ≠ e.delta_col := by
        intro e' he' hh
        exact hkey0 (List.mem_map.mpr ⟨e', he', by rw [hh]⟩)
      have hkeys : ∀ e' ∈ rest, normHeader e'.delta_col ≠ normHeader e.delta_col := by
        intro e' he' hh
        exact hkey0 (List.mem_map.mpr ⟨e', he', hh⟩)
      have hpres : (ensureDeltaCols rest (ensureStep st e)).idx e.delta_col =
          (ensureStep st e).idx e.delta_col ∧
          (ensureDeltaCols rest (ensureStep st e)).hm (normHeader e.delta_col) =
          (ensureStep st e).hm (normHeader e.delta_col) :=
        ⟨ensure_preserve_idx rest (ensureStep st e) e.delta_col hnames,
         ensure_preserve_hm rest (ensureStep st e) (normHeader e.delta_col) hkeys⟩
      cases hk : st.hm (normHeader e.delta_col) with
      | some c =>
        refine ⟨c, ?_, ?_⟩
        · show (ensureDeltaCols rest (ensureStep st e)).idx e.delta_col = some c
          rw [hpres.1]
          simp only [ensureStep, hk]
          exact updMap_self _ _ _
        · show (ensureDeltaCols rest (ensureStep st e)).hm (normHeader e.delta_col) = some c
          rw [hpres.2]
          simp only [ensureStep, hk]
      | none =>
        refine ⟨st.nextCol, ?_, ?_⟩
        · show (ensureDeltaCols rest (ensureStep st e)).idx e.delta_col = some st.nextCol
          rw [hpres.1]
          simp only [ensureStep, hk]
          exact updMap_self _ _ _
        · show (ensureDeltaCols rest (ensureStep st e)).hm (normHeader e.delta_col) =
            some st.nextCol
          rw [hpres.2]
          simp only [ensureStep, hk]
          exact updMap_self _ _ _
    · exact ih (ensureStep st e0) (List.nodup_cons.mp hnodup).2 e hrest

theorem ensure_all_present (mapping : List MappingEntry) (st : EnsureState)
    (hnames : (mapping.map fun e => e.delta_col).Nodup)
    (hall : ∀ e ∈ mapping, (st.hm (normHeader e.delta_col)).isSome = true) :
    (ensureDeltaCols mapping st).s = st.s ∧
    (ensureDeltaCols mapping st).hm = st.hm ∧
    (ensureDeltaCols mapping st).nextCol = st.nextCol ∧
    ∀ e ∈ mapping, (ensureDeltaCols mapping st).idx e.delta_col =
      st.hm (normHeader e.delta_col) := by
  induction mapping generalizing st with
  | nil => exact ⟨rfl, rfl, rfl, fun e he => absurd he (List.not_mem_nil e)⟩
  | cons e0 rest ih =>
    obtain ⟨c0, hc0⟩ := Option.isSome_iff_exists.mp (hall e0 (List.mem_cons_self _ _))
    have hstep : ensureStep st e0 =
        { st with idx := updMap st.idx e0.delta_col c0 } := by
      simp only [ensureStep, hc0]
    have hall' : ∀ e ∈ rest, ((ensureStep st e0).hm (normHeader e.delta_col)).isSome
        = true := by
      intro e he
      rw [hstep]
      exact hall e (List.mem_cons_of_mem _ he)
    have ihr := ih (ensureStep st e0) (List.nodup_cons.mp hnames).2 hall'
    have hs : (ensureStep st e0).s = st.s := by rw [hstep]
    have hhm : (ensureStep st e0).hm = st.hm := by rw [hstep]
    have hnc : (ensureStep st e0).nextCol = st.nextCol := by rw [hstep]
    refine ⟨ihr.1.trans hs, ihr.2.1.trans hhm, ihr.2.2.1.trans hnc, ?_⟩
    intro e he
    rcases List.mem_cons.mp he with he0 | hrest
    · subst he0
      have hnm : ∀ e' ∈ rest, e'.delta_col ≠ e.delta_col := by
        intro e' he' hh
        exact (List.nodup_cons.mp hnames).1 (List.mem_map.mpr ⟨e', he', hh⟩)
      have hpres := ensure_preserve_idx rest (ensureStep st e) e.delta_col hnm
      show (ensureDeltaCols rest (ensureStep st e)).idx e.delta_col = _
      rw [hpres, hstep, hc0]
      exact updMap_self _ _ _
    · have := ihr.2.2.2 e hrest
      rw [hhm] at this
      exact this

theorem ensure_nextCol_count (mapping : List MappingEntry) (st : EnsureState)
    (hnodup : (mapping.map fun e => normHeader e.delta_col).Nodup) :
    (ensureDeltaCols mapping st).nextCol =
      st.nextCol +
        (mapping.filter fun e => (st.hm (normHeader e.delta_col)).isNone).length := by
  induction mapping generalizing st with
  | nil => rfl
  | cons e0 rest ih =>
    have hkey0 : normHeader e0.delta_col ∉ rest.map fun e => normHeader e.delta_col :=
      (List.nodup_cons.mp hnodup).1
    show (ensureDeltaCols rest (ensureStep st e0)).nextCol = _
    have ihr := ih (ensureStep st e0) (List.nodup_cons.mp hnodup).2
    cases hk : st.hm (normHeader e0.delta_col) with
    | some c =>
      have hstep : ensureStep st e0 = { st with idx := updMap st.idx e0.delta_col c } := by
        simp only [ensureStep, hk]
      rw [ihr, hstep]
      have hfc : ((e0 :: rest).filter fun e => (st.hm (normHeader e.delta_col)).isNone) =
          (rest.filter fun e => (st.hm (normHeader e.delta_col)).isNone) := by
        rw [List.filter_cons]
        simp [hk]
      rw [hfc]
    | none =>
      rw [ihr]
      have hnc : (ensureStep st e0).nextCol = st.nextCol + 1 := by
        simp only [ensureStep, hk]
      have hfilter : (rest.filter fun e =>
          ((ensureStep st e0).hm (normHeader e.delta_col)).isNone) =
          (rest.filter fun e => (st.hm (normHeader e.delta_col)).isNone) := by
        apply List.filter_congr
        intro e he
        simp only [ensureStep, hk]
        rw [updMap_other _ _ _ _ (fun hh => hkey0 (List.mem_map.mpr ⟨e, he, hh⟩))]
      have hrhs : ((e0 :: rest).filter fun e => (st.hm (normHeader e.delta_col)).isNone) =
          e0 :: (rest.filter fun e => (st.hm (normHeader e.delta_col)).isNone) := by
        rw [List.filter_cons]
        simp [hk]
      rw [hfilter, hnc, hrhs, List.length_cons]
      omega

theorem findFallback_congr (hm1 hm2 : String → Option Nat) (fbs : List String)
    (h : ∀ f ∈ fbs, hm1 (normHeader f) = hm2 (normHeader f)) :
    find_header_col.findFallback hm1 fbs = find_header_col.findFallback hm2 fbs := by
  induction fbs with
  | nil => rfl
  | cons f fs ih =>
    show (match hm1 (normHeader f) with
      | some c => Except.ok c
      | none => find_header_col.findFallback hm1 fs) =
      (match hm2 (normHeader f) with
      | some c => Except.ok c
      | none => find_header_col.findFallback hm2 fs)
    rw [h f (List.mem_cons_self _ _)]
    cases hm2 (normHeader f) with
    | some c => rfl
    | none => exact ih fun f' hf' => h f' (List.mem_cons_of_mem _ hf')

theorem find_header_col_congr (hm1 hm2 : String → Option Nat) (pref : Option String)
    (fbs : List String)
    (hfb : ∀ f ∈ fbs, hm1 (normHeader f) = hm2 (normHeader f))
    (hp : ∀ p, pref = some p → hm1 (normHeader p) = hm2 (normHeader p)) :
    find_header_col hm1 pref fbs = find_header_col hm2 pref fbs := by
  cases pref with
  | none => exact findFallback_congr hm1 hm2 fbs hfb
  | some p =>
    by_cases hpe : p = ""
    · simp only [find_header_col, hpe, if_pos rfl]
      exact findFallback_congr hm1 hm2 fbs hfb
    · simp only [find_header_col, if_neg hpe]
      rw [hp p rfl]

theorem deltaWrite_fold_congr (vm : ValueMap) (country : String) (year : Int)
    (f g : String → Nat) (r : Nat) (mapping : List MappingEntry)
    (h : ∀ e ∈ mapping, f e.delta_col = g e.delta_col) (acc : Sheet × List PyFloat) :
    mapping.foldl (deltaWrite vm country year f r) acc =
      mapping.foldl (deltaWrite vm country year g r) acc := by
  induction mapping generalizing acc with
  | nil => rfl
  | cons e rest ih =>
    rw [List.foldl_cons, List.foldl_cons]
    have hstep : deltaWrite vm country year f r acc e =
        deltaWrite vm country year g r acc e := by
      rw [deltaWrite, deltaWrite, h e (List.mem_cons_self _ _)]
    rw [hstep]
    exact ih (fun e' he' => h e' (List.mem_cons_of_mem _ he')) _

theorem noneWrite_fold_congr (f g : String → Nat) (r : Nat)
    (mapping : List MappingEntry) (h : ∀ e ∈ mapping, f e.delta_col = g e.delta_col)
    (s : Sheet) :
    mapping.foldl (fun sh e => writeCell sh r (f e.delta_col) CellV.none) s =
      mapping.foldl (fun sh e => writeCell sh r (g e.delta_col) CellV.none) s := by
  induction mapping generalizing s with
  | nil => rfl
  | cons e rest ih =>
    rw [List.foldl_cons, List.foldl_cons, h e (List.mem_cons_self _ _)]
    exact ih (fun e' he' => h e' (List.mem_cons_of_mem _ he')) _

theorem processRow_congr (vm : ValueMap) (mapping : List MappingEntry)
    (f g : String → Nat) (gi : Nat) (aggSum : Bool) (r : Nat) (country : String)
    (yOpt : Option Int) (s : Sheet)
    (h : ∀ e ∈ mapping, f e.delta_col = g e.delta_col) :
    processRow vm mapping f gi aggSum r country yOpt s =
      processRow vm mapping g gi aggSum r country yOpt s := by
  cases yOpt with
  | none => simp only [processRow, noneWrite_fold_congr f g r mapping h s]
  | some y =>
    by_cases hc : country = ""
    · simp only [processRow, hc, if_true, noneWrite_fold_congr f g r mapping h s]
    · simp only [processRow, if_neg hc, deltaWrite_fold_congr vm country y f g r mapping h (s, [])]

theorem processRows_congr (vm : ValueMap) (mapping : List MappingEntry)
    (f g : String → Nat) (gi : Nat) (aggSum : Bool) (ci yi : Nat) (s : Sheet)
    (h : ∀ e ∈ mapping, f e.delta_col = g e.delta_col) :
    processRows vm mapping f gi aggSum ci yi s =
      processRows vm mapping g gi aggSum ci yi s := by
  rw [processRows, processRows]
  generalize List.range' 2 (s.maxRow - 1) = L
  induction L generalizing s with
  | nil => rfl
  | cons r rest ih =>
    rw [List.foldlM_cons, List.foldlM_cons]
    have hstep : rowStep vm mapping f gi aggSum ci yi s r =
        rowStep vm mapping g gi aggSum ci yi s r := by
      rw [rowStep, rowStep]
      cases as_year (s.cells r yi) with
      | ok yOpt =>
        simp only [Bind.bind, Except.bind]
        rw [processRow_congr vm mapping f g gi aggSum r _ yOpt s h]
      | error e => rfl
    rw [hstep]
    cases rowStep vm mapping g gi aggSum ci yi s r with
    | ok s1 =>
      simp only [Bind.bind, Except.bind]
      exact ih s1
    | error e => rfl

/-- The value a row's delta cell holds after the row is processed, as a
function of the resolution outcome. -/
def expectedDeltaCell (vm : ValueMap) (country : String) (yOpt : Option Int)
    (e : MappingEntry) : CellV :=
  match yOpt with
  | some y => if country = "" then CellV.none else cellOfDelta (entryDelta vm country y e)
  | none => CellV.none

/-- The value the aggregate cell holds after the row is processed. -/
def expectedGovCell (vm : ValueMap) (mapping : List MappingEntry) (country : String)
    (yOpt : Option Int) (aggSum : Bool) : CellV :=
  match rowDeltasOf vm mapping country yOpt with
  | [] => CellV.none
  | ds => .num (if aggSum then pySum ds else pyMean ds)

theorem processRow_cells_char (vm : ValueMap) (mapping : List MappingEntry)
    (colIdx : String → Nat) (gi : Nat) (aggSum : Bool) (r : Nat) (country : String)
    (yOpt : Option Int) (s : Sheet) (hn : (deltaCols colIdx mapping).Nodup)
    (hgi : gi ∉ deltaCols colIdx mapping) (e : MappingEntry) (he : e ∈ mapping) :
    (processRow vm mapping colIdx gi aggSum r country yOpt s).cells r
      (colIdx e.delta_col) = expectedDeltaCell vm country yOpt e := by
  cases yOpt with
  | none =>
    exact (processRow_unresolved vm mapping colIdx gi aggSum r country none s
      (Or.inr rfl) (colIdx e.delta_col) (List.mem_map.mpr ⟨e, he, rfl⟩)).1
  | some y =>
    by_cases hc : country = ""
    · rw [expectedDeltaCell, if_pos hc]
      exact (processRow_unresolved vm mapping colIdx gi aggSum r country (some y) s
        (Or.inl hc) (colIdx e.delta_col) (List.mem_map.mpr ⟨e, he, rfl⟩)).1
    · rw [expectedDeltaCell, if_neg hc]
      exact processRow_delta_resolved vm mapping colIdx gi aggSum r country y s hn hgi
        hc e he

theorem processRow_fixpoint (vm : ValueMap) (mapping : List MappingEntry)
    (colIdx : String → Nat) (gi : Nat) (aggSum : Bool) (r : Nat) (country : String)
    (yOpt : Option Int) (s : Sheet)
    (hn : (deltaCols colIdx mapping).Nodup) (hgi : gi ∉ deltaCols colIdx mapping)
    (hr : r ≤ s.maxRow)
    (hcols : ∀ e ∈ mapping, colIdx e.delta_col ≤ s.maxCol) (hgib : gi ≤ s.maxCol)
    (hvals : ∀ e ∈ mapping, s.cells r (colIdx e.delta_col) =
      expectedDeltaCell vm country yOpt e)
    (hgv : s.cells r gi = expectedGovCell vm mapping country yOpt aggSum) :
    processRow vm mapping colIdx gi aggSum r country yOpt s = s := by
  have hb := processRow_bounds vm mapping colIdx gi aggSum r country yOpt s hr hcols hgib
  refine Sheet.ext hb.1 hb.2 ?_
  funext r' c'
  by_cases ht : r' = r ∧ (c' ∈ deltaCols colIdx mapping ∨ c' = gi)
  · obtain ⟨hr', htc⟩ := ht
    subst hr'
    rcases htc with hmem | hgieq
    · obtain ⟨e, he, hce⟩ := List.mem_map.mp hmem
      rw [← hce]
      rw [processRow_cells_char vm mapping colIdx gi aggSum r' country yOpt s hn hgi e he]
      exact (hvals e he).symm
    · subst hgieq
      rw [processRow_gov]
      exact hgv.symm
  · exact processRow_frame vm mapping colIdx gi aggSum r country yOpt s r' c' ht

theorem rows_fold_values (vm : ValueMap) (mapping : List MappingEntry)
    (colIdx : String → Nat) (gi : Nat) (aggSum : Bool) (ci yi : Nat)
    (L : List Nat) (t out : Sheet)
    (hn : (deltaCols colIdx mapping).Nodup) (hgi : gi ∉ deltaCols colIdx mapping)
    (hLnd : L.Nodup)
    (hcols : ∀ e ∈ mapping, colIdx e.delta_col ≤ t.maxCol) (hgib : gi ≤ t.maxCol)
    (hLB : ∀ r ∈ L, r ≤ t.maxRow)
    (h : L.foldlM (rowStep vm mapping colIdx gi aggSum ci yi) t = .ok out) :
    ∀ r ∈ L, ∃ yOpt, as_year (t.cells r yi) = .ok yOpt ∧
      (∀ e ∈ mapping, out.cells r (colIdx e.delta_col) =
        expectedDeltaCell vm (as_country_code (t.cells r ci)) yOpt e) ∧
      out.cells r gi =
        expectedGovCell vm mapping (as_country_code (t.cells r ci)) yOpt aggSum := by
  induction L generalizing t with
  | nil => intro r hr; exact absurd hr (List.not_mem_nil r)
  | cons r0 rest ih =>
    rw [List.foldlM_cons] at h
    obtain ⟨s1, hs1, hrest⟩ := exceptBind_ok_elim _ _ _ h
    obtain ⟨yOpt0, hy0, hs1eq⟩ := rowStep_elim vm mapping colIdx gi aggSum ci yi t r0 s1 hs1
    have hb : s1.maxRow = t.maxRow ∧ s1.maxCol = t.maxCol := by
      rw [hs1eq]
      exact processRow_bounds vm mapping colIdx gi aggSum r0 _ yOpt0 t
        (hLB r0 (List.mem_cons_self _ _)) hcols hgib
    have hr0rest : r0 ∉ rest := (List.nodup_cons.mp hLnd).1
    have hrp := rows_fold_props vm mapping colIdx gi aggSum ci yi rest s1 out
      (fun e he => hb.2 ▸ hcols e he) (hb.2 ▸ hgib)
      (fun r hr => hb.1 ▸ hLB r (List.mem_cons_of_mem _ hr)) hrest
    intro r hr
    rcases List.mem_cons.mp hr with hr0 | hrrest
    · subst hr0
      refine ⟨yOpt0, hy0, ?_, ?_⟩
      · intro e he
        have hframe : out.cells r (colIdx e.delta_col) = s1.cells r (colIdx e.delta_col) := by
          by_contra hne
          exact hr0rest (hrp.2.2 _ _ hne).1
        rw [hframe, hs1eq]
        exact processRow_cells_char vm mapping colIdx gi aggSum r _ yOpt0 t hn hgi e he
      · have hframe : out.cells r gi = s1.cells r gi := by
          by_contra hne
          exact hr0rest (hrp.2.2 _ _ hne).1
        rw [hframe, hs1eq, processRow_gov]
        rfl
    · have hrne : r ≠ r0 := fun hh => hr0rest (hh ▸ hrrest)
      have ihres := ih s1 (List.nodup_cons.mp hLnd).2
        (fun e he => hb.2 ▸ hcols e he) (hb.2 ▸ hgib)
        (fun r' hr' => hb.1 ▸ hLB r' (List.mem_cons_of_mem _ hr')) hrest r hrrest
      obtain ⟨yOpt, hy, hdelta, hgov⟩ := ihres
      have hciframe : s1.cells r ci = t.cells r ci := by
        rw [hs1eq]
        refine processRow_frame vm mapping colIdx gi aggSum r0 _ yOpt0 t r ci ?_
        rintro ⟨hreq, -⟩
        exact hrne hreq
      have hyiframe : s1.cells r yi = t.cells r yi := by
        rw [hs1eq]
        refine processRow_frame vm mapping colIdx gi aggSum r0 _ yOpt0 t r yi ?_
        rintro ⟨hreq, -⟩
        exact hrne hreq
      rw [hyiframe] at hy
      rw [hciframe] at hdelta hgov
      exact ⟨yOpt, hy, hdelta, hgov⟩

theorem rows_fold_fixpoint (vm : ValueMap) (mapping : List MappingEntry)
    (colIdx : String → Nat) (gi : Nat) (aggSum : Bool) (ci yi : Nat)
    (L : List Nat) (out : Sheet)
    (hn : (deltaCols colIdx mapping).Nodup) (hgi : gi ∉ deltaCols colIdx mapping)
    (hcols : ∀ e ∈ mapping, colIdx e.delta_col ≤ out.maxCol) (hgib : gi ≤ out.maxCol)
    (hLB : ∀ r ∈ L, r ≤ out.maxRow)
    (hvals : ∀ r ∈ L, ∃ yOpt, as_year (out.cells r yi) = .ok yOpt ∧
      (∀ e ∈ mapping, out.cells r (colIdx e.delta_col) =
        expectedDeltaCell vm (as_country_code (out.cells r ci)) yOpt e) ∧
      out.cells r gi =
        expectedGovCell vm mapping (as_country_code (out.cells r ci)) yOpt aggSum) :
    L.foldlM (rowStep vm mapping colIdx gi aggSum ci yi) out = .ok out := by
  induction L with
  | nil => rfl
  | cons r0 rest ih =>
    obtain ⟨yOpt, hy, hdelta, hgov⟩ := hvals r0 (List.mem_cons_self _ _)
    have hfix : processRow vm mapping colIdx gi aggSum r0
        (as_country_code (out.cells r0 ci)) yOpt out = out :=
      processRow_fixpoint vm mapping colIdx gi aggSum r0 _ yOpt out hn hgi
        (hLB r0 (List.mem_cons_self _ _)) hcols hgib hdelta hgov
    rw [List.foldlM_cons,
      rowStep_ok vm mapping colIdx gi aggSum ci yi out r0 yOpt hy]
    simp only [Bind.bind, Except.bind, hfix]
    exact ih (fun r hr => hLB r (List.mem_cons_of_mem _ hr))
      (fun r hr => hvals r (List.mem_cons_of_mem _ hr))

theorem find_header_col_ok_elim (hm : String → Option Nat) (pref : Option String)
    (fbs : List String) (c : Nat) (h : find_header_col hm pref fbs = .ok c) :
    ∃ k, hm k = some c ∧
      ((∃ p, pref = some p ∧ p ≠ "" ∧ k = normHeader p) ∨ ∃ f ∈ fbs, k = normHeader f) := by
  have hfb : ∀ (fbs' : List String),
      find_header_col.findFallback hm fbs' = .ok c →
      ∃ k, hm k = some c ∧ ∃ f ∈ fbs', k = normHeader f := by
    intro fbs'
    induction fbs' with
    | nil => intro hh; exact Except.noConfusion hh
    | cons f fs ihf =>
      intro hh
      cases hf : hm (normHeader f) with
      | some c0 =>
        have : Except.ok (ε := PyErr) c0 = .ok c := by
          rw [← hh]
          show _ = find_header_col.findFallback hm (f :: fs)
          simp [find_header_col.findFallback, hf]
        have hc0 : c0 = c := Except.ok.inj this
        exact ⟨normHeader f, hc0 ▸ hf, f, List.mem_cons_self _ _, rfl⟩
      | none =>
        have hh' : find_header_col.findFallback hm fs = .ok c := by
          rw [← hh]
          show _ = find_header_col.findFallback hm (f :: fs)
          simp [find_header_col.findFallback, hf]
        obtain ⟨k, hk, f', hf', hkf⟩ := ihf hh'
        exact ⟨k, hk, f', List.mem_cons_of_mem _ hf', hkf⟩
  cases pref with
  | none =>
    obtain ⟨k, hk, f, hf, hkf⟩ := hfb fbs h
    exact ⟨k, hk, Or.inr ⟨f, hf, hkf⟩⟩
  | some p =>
    by_cases hpe : p = ""
    · rw [find_header_col, if_pos hpe] at h
      obtain ⟨k, hk, f, hf, hkf⟩ := hfb fbs h
      exact ⟨k, hk, Or.inr ⟨f, hf, hkf⟩⟩
    · rw [find_header_col, if_neg hpe] at h
      cases hp : hm (normHeader p) with
      | some c0 =>
        rw [hp] at h
        have : c0 = c := Except.ok.inj h
        exact ⟨normHeader p, this ▸ hp, Or.inl ⟨p, rfl, hpe, rfl⟩⟩
      | none =>
        rw [hp] at h
        exact Except.noConfusion h

theorem ensureGov_hm_facts (st : EnsureState) (hinv : EnsInv st)
    (hhm : st.hm = headerMap st.s) :
    (∀ k, k ≠ normHeader "gov_expected_changes" →
      headerMap (ensureGov st).1 k = st.hm k) ∧
    headerMap (ensureGov st).1 (normHeader "gov_expected_changes") =
      some (ensureGov st).2 ∧
    (ensureGov st).1.maxCol =
      (if (st.hm (normHeader "gov_expected_changes")).isNone then st.nextCol
       else st.s.maxCol) := by
  cases hgk : st.hm (normHeader "gov_expected_changes") with
  | some g =>
    simp only [ensureGov, hgk]
    exact ⟨fun k _ => hhm.symm ▸ rfl, by rw [← hhm, hgk], by simp⟩
  | none =>
    have hnc : st.nextCol = st.s.maxCol + 1 := hinv.2.2.symm
    have happ : headerMap (writeCell st.s 1 st.nextCol (.str "gov_expected_changes")) =
        updMap (headerMap st.s) (normHeader "gov_expected_changes") st.nextCol := by
      rw [hnc]
      exact headerMap_append st.s "gov_expected_changes"
    simp only [ensureGov, hgk]
    refine ⟨?_, ?_, ?_⟩
    · intro k hk
      rw [happ, updMap_other _ _ _ _ hk, hhm]
    · rw [happ, updMap_self]
    · simp only [writeCell, Option.isNone_none, if_true]
      exact max_eq_right (by omega)

/-- C7 (confirmed): on a successful run, each of the 19 destination
columns and the aggregate column is reused when a matching (normalized)
header already exists and otherwise exactly one fresh column is appended
— the output column count is the input's plus the number of missing
derived headers. Consequently re-running the enrichment on its own output
succeeds and returns the output unchanged: no duplicate columns, identical
derived values, no run-dependent state. Hypotheses: the derived column
names are pairwise distinct (normalized), distinct from the aggregate
column's name, and none of them collides with the country/year header
spellings (overrides or fallbacks) used to locate the identifier columns. -/
theorem c7_column_reuse_idempotent (co yo : Option String) (aggSum : Bool)
    (mapping : List MappingEntry) (vm : ValueMap) (s out : Sheet)
    (hmr : 1 ≤ s.maxRow)
    (hnodup : (mapping.map fun e => normHeader e.delta_col).Nodup)
    (hgovk : ∀ e ∈ mapping, normHeader e.delta_col ≠ normHeader "gov_expected_changes")
    (hident : ∀ k, ((k ∈ mapping.map fun e => normHeader e.delta_col) ∨
        k = normHeader "gov_expected_changes") →
      (∀ f ∈ countryFallbacks ++ yearFallbacks, k ≠ normHeader f) ∧
      (∀ p, co = some p → k ≠ normHeader p) ∧ (∀ p, yo = some p → k ≠ normHeader p))
    (h : enrich co yo aggSum mapping vm s = .ok out) :
    out.maxCol = s.maxCol +
      (mapping.filter fun e => (headerMap s (normHeader e.delta_col)).isNone).length +
      (if (headerMap s (normHeader "gov_expected_changes")).isNone then 1 else 0) ∧
    enrich co yo aggSum mapping vm out = .ok out := by
  obtain ⟨ci, yi, hci, hyi, hrows⟩ := enrich_ok_elim co yo aggSum mapping vm s out h
  have hinv : EnsInv (ensureDeltaCols mapping (initEnsure s)) :=
    ensure_inv mapping (initEnsure s) (initEnsure_inv s)
  have hhmS : (ensureDeltaCols mapping (initEnsure s)).hm =
      headerMap (ensureDeltaCols mapping (initEnsure s)).s :=
    ensure_hm_headerMap mapping (initEnsure s) (initEnsure_inv s) rfl
  have hnames := nodup_keys_names mapping hnodup
  have hmapNodup : mapping.Nodup :=
    List.Nodup.of_map (fun e => normHeader e.delta_col) hnodup
  have hgvf := ensureGov_hm_facts (ensureDeltaCols mapping (initEnsure s)) hinv hhmS
  have hgvp := ensureGov_props (ensureDeltaCols mapping (initEnsure s)) hinv
  have hstr : (ensureDeltaCols mapping (initEnsure s)).s.maxRow = s.maxRow :=
    ensure_maxRow mapping (initEnsure s) hmr
  have hs2r : (ensureGov (ensureDeltaCols mapping (initEnsure s))).1.maxRow = s.maxRow := by
    rw [hgvp.2.2.1 (by rw [hstr]; exact hmr), hstr]
  rw [processRows] at hrows
  have hcolsB : ∀ e ∈ mapping,
      (fun nm => ((ensureDeltaCols mapping (initEnsure s)).idx nm).getD 0) e.delta_col ≤
        (ensureGov (ensureDeltaCols mapping (initEnsure s))).1.maxCol := by
    intro e he
    cases hx : (ensureDeltaCols mapping (initEnsure s)).idx e.delta_col with
    | none => simp only [hx, Option.getD_none]; exact Nat.zero_le _
    | some c => simp only [hx, Option.getD_some]; exact hgvp.2.2.2.2 _ _ hx
  have hLB : ∀ r ∈ List.range' 2
      ((ensureGov (ensureDeltaCols mapping (initEnsure s))).1.maxRow - 1),
      r ≤ (ensureGov (ensureDeltaCols mapping (initEnsure s))).1.maxRow := by
    intro r hr
    have := List.mem_range'_1.mp hr
    omega
  have hrp := rows_fold_props vm mapping _ _ aggSum ci yi _ _ out hcolsB hgvp.2.1 hLB hrows
  have hmout : headerMap out =
      headerMap (ensureGov (ensureDeltaCols mapping (initEnsure s))).1 := by
    refine (headerMap_congr _ out hrp.2.1.symm ?_).symm
    intro c h1 h2
    by_contra hne
    have hm1 := (hrp.2.2 1 c fun hh => hne hh.symm).1
    have := List.mem_range'_1.mp hm1
    omega
  have hdeltaF : ∀ e ∈ mapping,
      headerMap out (normHeader e.delta_col) =
        some (((ensureDeltaCols mapping (initEnsure s)).idx e.delta_col).getD 0) := by
    intro e he
    obtain ⟨c, hic, hkc⟩ := ensure_idx_hm mapping (initEnsure s) hnodup e he
    rw [hmout, hgvf.1 _ (hgovk e he), hkc, hic, Option.getD_some]
  have hgovF : headerMap out (normHeader "gov_expected_changes") =
      some (ensureGov (ensureDeltaCols mapping (initEnsure s))).2 := by
    rw [hmout]; exact hgvf.2.1
  have hotherF : ∀ k, (k ∉ mapping.map fun e => normHeader e.delta_col) →
      k ≠ normHeader "gov_expected_changes" → headerMap out k = headerMap s k := by
    intro k hk1 hk2
    rw [hmout, hgvf.1 k hk2]
    exact ensure_preserve_hm mapping (initEnsure s) k
      fun e he hh => hk1 (List.mem_map.mpr ⟨e, he, hh⟩)
  have hnonderived : ∀ k, ((∃ p, (co = some p ∨ yo = some p) ∧ k = normHeader p) ∨
      ∃ f ∈ countryFallbacks ++ yearFallbacks, k = normHeader f) →
      (k ∉ mapping.map fun e => normHeader e.delta_col) ∧
        k ≠ normHeader "gov_expected_changes" := by
    intro k hsrc
    constructor
    · intro hkm
      have hT := hident k (Or.inl hkm)
      rcases hsrc with ⟨p, hpo, hkp⟩ | ⟨f, hf, hkf⟩
      · rcases hpo with hco | hyo
        · exact hT.2.1 p hco hkp
        · exact hT.2.2 p hyo hkp
      · exact hT.1 f hf hkf
    · intro hkg
      have hT := hident k (Or.inr hkg)
      rcases hsrc with ⟨p, hpo, hkp⟩ | ⟨f, hf, hkf⟩
      · rcases hpo with hco | hyo
        · exact hT.2.1 p hco hkp
        · exact hT.2.2 p hyo hkp
      · exact hT.1 f hf hkf
  have hciOut : find_header_col (headerMap out) co countryFallbacks = .ok ci := by
    refine Eq.trans (find_header_col_congr (headerMap out) (headerMap s) co
      countryFallbacks ?_ ?_) hci
    · intro f hf
      have hd := hnonderived (normHeader f)
        (Or.inr ⟨f, List.mem_append_left _ hf, rfl⟩)
      exact hotherF _ hd.1 hd.2
    · intro p hp
      have hd := hnonderived (normHeader p) (Or.inl ⟨p, Or.inl hp, rfl⟩)
      exact hotherF _ hd.1 hd.2
  have hyiOut : find_header_col (headerMap out) yo yearFallbacks = .ok yi := by
    refine Eq.trans (find_header_col_congr (headerMap out) (headerMap s) yo
      yearFallbacks ?_ ?_) hyi
    · intro f hf
      have hd := hnonderived (normHeader f)
        (Or.inr ⟨f, List.mem_append_right _ hf, rfl⟩)
      exact hotherF _ hd.1 hd.2
    · intro p hp
      have hd := hnonderived (normHeader p) (Or.inl ⟨p, Or.inr hp, rfl⟩)
      exact hotherF _ hd.1 hd.2
  have hinjcol : ∀ e1 ∈ mapping, ∀ e2 ∈ mapping,
      ((ensureDeltaCols mapping (initEnsure s)).idx e1.delta_col).getD 0 =
      ((ensureDeltaCols mapping (initEnsure s)).idx e2.delta_col).getD 0 → e1 = e2 := by
    intro e1 he1 e2 he2 hcc
    have h1 := hdeltaF e1 he1
    have h2 := hdeltaF e2 he2
    rw [hcc] at h1
    exact List.inj_on_of_nodup_map hnodup he1 he2 (headerMap_inj out _ _ _ h1 h2)
  have hTnodup : (deltaCols
      (fun nm => ((ensureDeltaCols mapping (initEnsure s)).idx nm).getD 0) mapping).Nodup :=
    List.Nodup.map_on (fun e1 he1 e2 he2 hcc => hinjcol e1 he1 e2 he2 hcc) hmapNodup
  have hgiT : (ensureGov (ensureDeltaCols mapping (initEnsure s))).2 ∉
      deltaCols (fun nm => ((ensureDeltaCols mapping (initEnsure s)).idx nm).getD 0)
        mapping := by
    intro hmem
    obtain ⟨e, he, hce⟩ := List.mem_map.mp hmem
    have h1 : headerMap out (normHeader e.delta_col) =
        some (ensureGov (ensureDeltaCols mapping (initEnsure s))).2 := by
      rw [hdeltaF e he]
      exact congrArg some hce
    exact hgovk e he (headerMap_inj out _ _ _ h1 hgovF)
  have hciT : (ci ∉ deltaCols
      (fun nm => ((ensureDeltaCols mapping (initEnsure s)).idx nm).getD 0) mapping) ∧
      ci ≠ (ensureGov (ensureDeltaCols mapping (initEnsure s))).2 := by
    obtain ⟨kc, hkc, hsrc⟩ := find_header_col_ok_elim (headerMap s) co countryFallbacks ci hci
    have hkd : (kc ∉ mapping.map fun e => normHeader e.delta_col) ∧
        kc ≠ normHeader "gov_expected_changes" := by
      refine hnonderived kc ?_
      rcases hsrc with ⟨p, hp, -, hkp⟩ | ⟨f, hf, hkf⟩
      · exact Or.inl ⟨p, Or.inl hp, hkp⟩
      · exact Or.inr ⟨f, List.mem_append_left _ hf, hkf⟩
    have hkcOut : headerMap out kc = some ci := (hotherF kc hkd.1 hkd.2).trans hkc
    constructor
    · intro hmem
      obtain ⟨e, he, hce⟩ := List.mem_map.mp hmem
      have h1 : headerMap out (normHeader e.delta_col) = some ci := by
        rw [hdeltaF e he]
        exact congrArg some hce
      exact hkd.1 ((headerMap_inj out kc _ _ hkcOut h1) ▸
        List.mem_map.mpr ⟨e, he, rfl⟩)
    · intro hgieq
      rw [hgieq] at hkcOut
      exact hkd.2 (headerMap_inj out kc _ _ hkcOut hgovF)
  have hyiT : (yi ∉ deltaCols
      (fun nm => ((ensureDeltaCols mapping (initEnsure s)).idx nm).getD 0) mapping) ∧
      yi ≠ (ensureGov (ensureDeltaCols mapping (initEnsure s))).2 := by
    obtain ⟨kc, hkc, hsrc⟩ := find_header_col_ok_elim (headerMap s) yo yearFallbacks yi hyi
    have hkd : (kc ∉ mapping.map fun e => normHeader e.delta_col) ∧
        kc ≠ normHeader "gov_expected_changes" := by
      refine hnonderived kc ?_
      rcases hsrc with ⟨p, hp, -, hkp⟩ | ⟨f, hf, hkf⟩
      · exact Or.inl ⟨p, Or.inr hp, hkp⟩
      · exact Or.inr ⟨f, List.mem_append_right _ hf, hkf⟩
    have hkcOut : headerMap out kc = some yi := (hotherF kc hkd.1 hkd.2).trans hkc
    constructor
    · intro hmem
      obtain ⟨e, he, hce⟩ := List.mem_map.mp hmem
      have h1 : headerMap out (normHeader e.delta_col) = some yi := by
        rw [hdeltaF e he]
        exact congrArg some hce
      exact hkd.1 ((headerMap_inj out kc _ _ hkcOut h1) ▸
        List.mem_map.mpr ⟨e, he, rfl⟩)
    · intro hgieq
      rw [hgieq] at hkcOut
      exact hkd.2 (headerMap_inj out kc _ _ hkcOut hgovF)
  have hvalsT := rows_fold_values vm mapping
    (fun nm => ((ensureDeltaCols mapping (initEnsure s)).idx nm).getD 0)
    (ensureGov (ensureDeltaCols mapping (initEnsure s))).2 aggSum ci yi
    (List.range' 2 ((ensureGov (ensureDeltaCols mapping (initEnsure s))).1.maxRow - 1))
    (ensureGov (ensureDeltaCols mapping (initEnsure s))).1 out
    hTnodup hgiT (List.nodup_range' _ _) hcolsB hgvp.2.1 hLB hrows
  have hreads : ∀ r ∈ List.range' 2
      ((ensureGov (ensureDeltaCols mapping (initEnsure s))).1.maxRow - 1),
      out.cells r ci = (ensureGov (ensureDeltaCols mapping (initEnsure s))).1.cells r ci ∧
      out.cells r yi = (ensureGov (ensureDeltaCols mapping (initEnsure s))).1.cells r yi := by
    intro r hr
    constructor
    · by_contra hne
      rcases (hrp.2.2 r ci hne).2 with hmem | hgieq
      · exact hciT.1 hmem
      · exact hciT.2 hgieq
    · by_contra hne
      rcases (hrp.2.2 r yi hne).2 with hmem | hgieq
      · exact hyiT.1 hmem
      · exact hyiT.2 hgieq
  have hcount := ensure_nextCol_count mapping (initEnsure s) hnodup
  have hgovpres : (ensureDeltaCols mapping (initEnsure s)).hm
      (normHeader "gov_expected_changes") =
      headerMap s (normHeader "gov_expected_changes") :=
    ensure_preserve_hm mapping (initEnsure s) _ fun e he => hgovk e he
  have hmaxcol : out.maxCol = s.maxCol +
      (mapping.filter fun e => (headerMap s (normHeader e.delta_col)).isNone).length +
      (if (headerMap s (normHeader "gov_expected_changes")).isNone then 1 else 0) := by
    rw [hrp.2.1, hgvf.2.2, hgovpres]
    have hini : (initEnsure s).nextCol = s.maxCol + 1 := rfl
    have hfilt : (mapping.filter fun e =>
        ((initEnsure s).hm (normHeader e.delta_col)).isNone) =
        (mapping.filter fun e => (headerMap s (normHeader e.delta_col)).isNone) := rfl
    rw [hfilt, hini] at hcount
    have hmc := hinv.2.2
    cases hgn : (headerMap s (normHeader "gov_expected_changes")).isNone with
    | true => simp only [if_true]; omega
    | false => simp only [Bool.false_eq_true, if_false]; omega
  refine ⟨hmaxcol, ?_⟩
  have hallp : ∀ e ∈ mapping, ((initEnsure out).hm (normHeader e.delta_col)).isSome
      = true := by
    intro e he
    show (headerMap out (normHeader e.delta_col)).isSome = true
    rw [hdeltaF e he]
    rfl
  have hap := ensure_all_present mapping (initEnsure out) hnames hallp
  have hgov2 : ensureGov (ensureDeltaCols mapping (initEnsure out)) =
      (out, (ensureGov (ensureDeltaCols mapping (initEnsure s))).2) := by
    have hk2 : (ensureDeltaCols mapping (initEnsure out)).hm
        (normHeader "gov_expected_changes") =
        some (ensureGov (ensureDeltaCols mapping (initEnsure s))).2 := by
      rw [hap.2.1]
      exact hgovF
    simp only [ensureGov, hk2]
    rw [hap.1]
    rfl
  have hcolagree : ∀ e ∈ mapping,
      ((ensureDeltaCols mapping (initEnsure out)).idx e.delta_col).getD 0 =
      ((ensureDeltaCols mapping (initEnsure s)).idx e.delta_col).getD 0 := by
    intro e he
    rw [hap.2.2.2 e he]
    show (headerMap out (normHeader e.delta_col)).getD 0 = _
    rw [hdeltaF e he]
    rfl
  have hvalsOut : ∀ r ∈ List.range' 2
      ((ensureGov (ensureDeltaCols mapping (initEnsure s))).1.maxRow - 1),
      ∃ yOpt, as_year (out.cells r yi) = .ok yOpt ∧
      (∀ e ∈ mapping, out.cells r
          ((fun nm => ((ensureDeltaCols mapping (initEnsure s)).idx nm).getD 0)
            e.delta_col) =
        expectedDeltaCell vm (as_country_code (out.cells r ci)) yOpt e) ∧
      out.cells r (ensureGov (ensureDeltaCols mapping (initEnsure s))).2 =
        expectedGovCell vm mapping (as_country_code (out.cells r ci)) yOpt aggSum := by
    intro r hr
    obtain ⟨yOpt, hy, hd, hg⟩ := hvalsT r hr
    obtain ⟨hcir, hyir⟩ := hreads r hr
    refine ⟨yOpt, by rw [hyir]; exact hy, ?_, ?_⟩
    · intro e he
      rw [hcir]
      exact hd e he
    · rw [hcir]
      exact hg
  have hfix := rows_fold_fixpoint vm mapping
    (fun nm => ((ensureDeltaCols mapping (initEnsure s)).idx nm).getD 0)
    (ensureGov (ensureDeltaCols mapping (initEnsure s))).2 aggSum ci yi
    (List.range' 2 ((ensureGov (ensureDeltaCols mapping (initEnsure s))).1.maxRow - 1))
    out hTnodup hgiT
    (fun e he => hrp.2.1 ▸ hcolsB e he) (hrp.2.1 ▸ hgvp.2.1)
    (fun r hr => hrp.1 ▸ hLB r hr) hvalsOut
  rw [enrich]
  rw [exceptBind_ok _ _ _ hciOut, exceptBind_ok _ _ _ hyiOut]
  show processRows vm mapping
    (fun nm => ((ensureDeltaCols mapping (initEnsure out)).idx nm).getD 0)
    (ensureGov (ensureDeltaCols mapping (initEnsure out))).2 aggSum ci yi
    (ensureGov (ensureDeltaCols mapping (initEnsure out))).1 = .ok out
  rw [hgov2]
  rw [processRows_congr vm mapping _
    (fun nm => ((ensureDeltaCols mapping (initEnsure s)).idx nm).getD 0)
    (ensureGov (ensureDeltaCols mapping (initEnsure s))).2 aggSum ci yi out hcolagree]
  rw [processRows]
  have hmrout : out.maxRow =
      (ensureGov (ensureDeltaCols mapping (initEnsure s))).1.maxRow := hrp.1
  rw [hmrout]
  exact hfix

/-- C7 (witness): a concrete enrichment (one fresh delta column, fresh
aggregate column) grows the sheet from 2 to 4 columns, and re-running the
enrichment on its own output returns the output unchanged. -/
theorem c7_column_reuse_idempotent_witness :
    ∃ out, enrich none none false [⟨"d1", "i1", .finite ⟨1, 1⟩⟩] []
        ⟨2, 2, fun r c =>
          if r = 1 ∧ c = 1 then .str "Country"
          else if r = 1 ∧ c = 2 then .str "Year"
          else if r = 2 ∧ c = 1 then .str "usa"
          else if r = 2 ∧ c = 2 then .num (.finite ⟨2015, 1⟩)
          else CellV.none⟩ = .ok out ∧
      out.maxCol = 4 ∧
      enrich none none false [⟨"d1", "i1", .finite ⟨1, 1⟩⟩] [] out = .ok out := by
  cases henr : enrich none none false [⟨"d1", "i1", .finite ⟨1, 1⟩⟩] []
      ⟨2, 2, fun r c =>
        if r = 1 ∧ c = 1 then .str "Country"
        else if r = 1 ∧ c = 2 then .str "Year"
        else if r = 2 ∧ c = 1 then .str "usa"
        else if r = 2 ∧ c = 2 then .num (.finite ⟨2015, 1⟩)
        else CellV.none⟩ with
  | error e =>
    have hs : (enrich none none false [⟨"d1", "i1", .finite ⟨1, 1⟩⟩] []
        ⟨2, 2, fun r c =>
          if r = 1 ∧ c = 1 then .str "Country"
          else if r = 1 ∧ c = 2 then .str "Year"
          else if r = 2 ∧ c = 1 then .str "usa"
          else if r = 2 ∧ c = 2 then .num (.finite ⟨2015, 1⟩)
          else CellV.none⟩).toOption.isSome = true := by decide
    rw [henr] at hs
    simp [Except.toOption] at hs
  | ok out =>
    have hident : ∀ k, ((k ∈ [(⟨"d1", "i1", .finite ⟨1, 1⟩⟩ : MappingEntry)].map
        fun e => normHeader e.delta_col) ∨ k = normHeader "gov_expected_changes") →
        (∀ f ∈ countryFallbacks ++ yearFallbacks, k ≠ normHeader f) ∧
        (∀ p, (none : Option String) = some p → k ≠ normHeader p) ∧
        (∀ p, (none : Option String) = some p → k ≠ normHeader p) := by
      intro k hk
      rcases hk with hk | hk
      · simp only [List.map_cons, List.map_nil, List.mem_singleton] at hk
        subst hk
        exact ⟨by decide, fun p hp => Option.noConfusion hp,
          fun p hp => Option.noConfusion hp⟩
      · subst hk
        exact ⟨by decide, fun p hp => Option.noConfusion hp,
          fun p hp => Option.noConfusion hp⟩
    have hc7 := c7_column_reuse_idempotent none none false
      [⟨"d1", "i1", .finite ⟨1, 1⟩⟩] [] _ out (by decide) (by decide) (by decide)
      hident henr
    exact ⟨out, rfl, hc7.1.trans (by decide), hc7.2⟩
